import Mathlib

/-
  Verification of the TMDL metadata reconciliation layer of the PBI-Cleaner
  ("Tentacles") repository.  Python strings are modelled as `List Char`;
  regular-expression based scanners are translated into explicit character
  scanners with the same matching semantics.  Each definition is translated
  from the corresponding Python function in the source tree (file and
  function named in its doc comment).
-/

/-- Python whitespace test for the ASCII range, as used by str.strip and
the regex class \s on the inputs this program handles. -/
def pySpace (c : Char) : Bool :=
  c = ' ' || c = '\t' || c = '\n' || c = '\r' || c = '\x0b' || c = '\x0c'

/-- Left strip, Python str.lstrip(). -/
def lstripL (s : List Char) : List Char := s.dropWhile pySpace

/-- Right strip, Python str.rstrip(). -/
def rstripL (s : List Char) : List Char := (s.reverse.dropWhile pySpace).reverse

/-- Python str.strip(). -/
def stripL (s : List Char) : List Char := rstripL (lstripL s)

/-- Characters collapsed by the group-path separator regex (slash and
backslash). -/
def isSlash (c : Char) : Bool := c = '/' || c = '\\'

/-- Replacement of every maximal run of [\\/]+ by a single slash,
the effect of re.sub in _normalize_group_path. -/
def collapseSlashRuns : List Char → List Char
  | [] => []
  | [c] => if isSlash c then ['/'] else [c]
  | c :: d :: rest =>
      if isSlash c then
        if isSlash d then collapseSlashRuns (d :: rest)
        else '/' :: collapseSlashRuns (d :: rest)
      else c :: collapseSlashRuns (d :: rest)

/-- Python str.split(sep) for a single-character separator. -/
def splitOnChar (sep : Char) : List Char → List (List Char)
  | [] => [[]]
  | c :: cs =>
      if c = sep then [] :: splitOnChar sep cs
      else
        match splitOnChar sep cs with
        | [] => [[c]]
        | p :: ps => (c :: p) :: ps

/-- Python "/".join(parts). -/
def joinSlash : List (List Char) → List Char
  | [] => []
  | [p] => p
  | p :: q :: ps => p ++ '/' :: joinSlash (q :: ps)

/-- Test used by _normalize_group_path for a value wrapped in matching
single or double quotes (startswith/endswith pair). -/
def quoteWrapped (t : List Char) : Bool :=
  match t with
  | [] => false
  | c :: _ =>
      (c = '\'' && t.getLast? = some '\'') || (c = '"' && t.getLast? = some '"')

/-- Embedding of _normalize_group_path (src/common_functions.py, lines
483-491): strip, strip one layer of matching quotes, collapse slash and
backslash runs to a single slash, split on slash, strip the parts, drop
empty parts, and rejoin; empty input or no surviving parts yields None. -/
def normalizeGroupPath (raw : List Char) : Option (List Char) :=
  if raw.isEmpty then none
  else
    let text := stripL raw
    let text := if quoteWrapped text then (text.drop 1).dropLast else text
    let text := collapseSlashRuns text
    let parts := ((splitOnChar '/' text).map stripL).filter (fun p => !p.isEmpty)
    if parts.isEmpty then none else some (joinSlash parts)

/- Helper lemmas about the string utilities. -/

theorem dropWhile_head_not {p : Char → Bool} {s : List Char} {h : Char}
    (hh : (s.dropWhile p).head? = some h) : p h = false := by
  induction s with
  | nil => simp [List.dropWhile] at hh
  | cons c cs ih =>
      by_cases hc : p c
      · simp [List.dropWhile, hc] at hh
        exact ih hh
      · simp [List.dropWhile, hc] at hh
        simp [← hh]
        simpa using hc

/-- A list whose first and last characters are not whitespace. -/
def StrippedShape (s : List Char) : Prop :=
  (∀ h, s.head? = some h → pySpace h = false) ∧
  (∀ h, s.getLast? = some h → pySpace h = false)

theorem lstripL_head {s : List Char} {h : Char}
    (hh : (lstripL s).head? = some h) : pySpace h = false :=
  dropWhile_head_not hh

theorem rstripL_getLast {s : List Char} {h : Char}
    (hh : (rstripL s).getLast? = some h) : pySpace h = false := by
  unfold rstripL at hh
  rw [List.getLast?_reverse] at hh
  exact dropWhile_head_not hh

theorem rstripL_head {s : List Char} {h : Char}
    (hs : ∀ x, s.head? = some x → pySpace x = false)
    (hh : (rstripL s).head? = some h) : pySpace h = false := by
  have hsub : (rstripL s).head? = some h → s.head? = some h := by
    intro hx
    unfold rstripL at hx
    rcases hdw : List.dropWhile pySpace s.reverse with _ | ⟨c, cs⟩
    · rw [hdw] at hx; simp at hx
    · rw [hdw] at hx
      have hpre : (c :: cs).reverse.head? = some h := hx
      have hsuf : c :: cs <:+ s.reverse := by
        have := List.dropWhile_suffix (l := s.reverse) (p := pySpace)
        rw [hdw] at this
        exact this
      rcases hsuf with ⟨t, ht⟩
      have hs' : s = (c :: cs).reverse ++ t.reverse := by
        have := congrArg List.reverse ht
        simpa using this.symm
      rw [hs']
      rcases hrev : (c :: cs).reverse with _ | ⟨d, ds⟩
      · simp at hrev
      · rw [hrev] at hpre
        simp at hpre
        simp [hpre]
  exact hs h (hsub hh)

theorem stripL_shape (s : List Char) : StrippedShape (stripL s) := by
  constructor
  · intro h hh
    exact rstripL_head (fun x hx => lstripL_head hx) hh
  · intro h hh
    exact rstripL_getLast hh

theorem dropWhile_of_head_not {p : Char → Bool} {s : List Char}
    (hs : ∀ x, s.head? = some x → p x = false) : s.dropWhile p = s := by
  cases s with
  | nil => rfl
  | cons c cs =>
      have := hs c (by simp)
      simp [List.dropWhile, this]

theorem stripL_of_shape {s : List Char} (h : StrippedShape s) : stripL s = s := by
  rcases h with ⟨h1, h2⟩
  have hl : lstripL s = s := dropWhile_of_head_not h1
  unfold stripL
  rw [hl]
  unfold rstripL
  have hrev : ∀ x, s.reverse.head? = some x → pySpace x = false := by
    intro x hx
    rw [List.head?_reverse] at hx
    exact h2 x hx
  rw [dropWhile_of_head_not hrev]
  simp

theorem stripL_idem (s : List Char) : stripL (stripL s) = stripL s :=
  stripL_of_shape (stripL_shape s)

theorem mem_of_mem_dropWhile {p : Char → Bool} {s : List Char} {x : Char}
    (h : x ∈ s.dropWhile p) : x ∈ s :=
  (List.dropWhile_sublist (p := p) (l := s)).mem h

theorem mem_of_mem_stripL {s : List Char} {x : Char} (h : x ∈ stripL s) :
    x ∈ s := by
  unfold stripL rstripL lstripL at h
  rw [List.mem_reverse] at h
  have h1 := mem_of_mem_dropWhile h
  rw [List.mem_reverse] at h1
  exact mem_of_mem_dropWhile h1

theorem splitOnChar_not_mem (sep : Char) (s : List Char) :
    ∀ p ∈ splitOnChar sep s, sep ∉ p := by
  induction s with
  | nil => intro p hp; simp [splitOnChar] at hp; simp [hp]
  | cons c cs ih =>
      intro p hp
      by_cases hc : c = sep
      · simp [splitOnChar, hc] at hp
        rcases hp with hp | hp
        · simp [hp]
        · exact ih p hp
      · simp only [splitOnChar, if_neg hc] at hp
        rcases hsp : splitOnChar sep cs with _ | ⟨q, qs⟩
        · rw [hsp] at hp; simp at hp
          intro hmem
          rw [hp] at hmem
          simp at hmem
          exact hc hmem.symm
        · rw [hsp] at hp
          simp at hp
          rcases hp with hp | hp
          · intro hmem
            rw [hp] at hmem
            simp at hmem
            rcases hmem with hmem | hmem
            · exact hc hmem.symm
            · have := ih q (by rw [hsp]; simp)
              exact this hmem
          · exact ih p (by rw [hsp]; simp [hp])

theorem splitOnChar_mem_subset (sep : Char) (s : List Char) :
    ∀ p ∈ splitOnChar sep s, ∀ x ∈ p, x ∈ s := by
  induction s with
  | nil => intro p hp; simp [splitOnChar] at hp; simp [hp]
  | cons c cs ih =>
      intro p hp x hx
      by_cases hc : c = sep
      · simp [splitOnChar, hc] at hp
        rcases hp with hp | hp
        · rw [hp] at hx; simp at hx
        · exact List.mem_cons_of_mem _ (ih p hp x hx)
      · simp only [splitOnChar, if_neg hc] at hp
        rcases hsp : splitOnChar sep cs with _ | ⟨q, qs⟩
        · rw [hsp] at hp; simp at hp
          rw [hp] at hx; simp at hx
          simp [hx]
        · rw [hsp] at hp
          simp at hp
          rcases hp with hp | hp
          · rw [hp] at hx
            simp at hx
            rcases hx with hx | hx
            · simp [hx]
            · exact List.mem_cons_of_mem _ (ih q (by rw [hsp]; simp) x hx)
          · exact List.mem_cons_of_mem _ (ih p (by rw [hsp]; simp [hp]) x hx)

theorem collapseSlashRuns_no_backslash (s : List Char) :
    '\\' ∉ collapseSlashRuns s := by
  induction s with
  | nil => simp [collapseSlashRuns]
  | cons c cs ih =>
      cases cs with
      | nil =>
          by_cases hc : isSlash c
          · simp [collapseSlashRuns, hc]
          · simp [collapseSlashRuns, hc]
            intro hmem
            rw [← hmem] at hc
            simp [isSlash] at hc
      | cons d ds =>
          by_cases hc : isSlash c
          · by_cases hd : isSlash d
            · simpa [collapseSlashRuns, hc, hd] using ih
            · simpa [collapseSlashRuns, hc, hd] using ih
          · simp only [collapseSlashRuns, if_neg hc, List.mem_cons]
            rintro (hmem | hmem)
            · rw [← hmem] at hc
              simp [isSlash] at hc
            · exact ih hmem

/-- No backslash and no two adjacent slash characters: the shape of a
string on which the separator-collapsing substitution is the identity. -/
def noDoubleAt (c : Char) : List Char → Bool
  | [] => true
  | d :: _ => !(c = '/' && d = '/')

/-- Slash-run freeness for a whole string. -/
def cleanSlashes : List Char → Bool
  | [] => true
  | c :: rest => (!(c = '\\')) && noDoubleAt c rest && cleanSlashes rest

theorem cleanSlashes_cons_eq (c : Char) (rest : List Char) :
    cleanSlashes (c :: rest) =
      ((!(c = '\\')) && noDoubleAt c rest && cleanSlashes rest) := rfl

theorem cleanSlashes_cons_parts {c : Char} {rest : List Char}
    (h : cleanSlashes (c :: rest) = true) :
    ¬ c = '\\' ∧ noDoubleAt c rest = true ∧ cleanSlashes rest = true := by
  rw [cleanSlashes_cons_eq, Bool.and_eq_true, Bool.and_eq_true] at h
  refine ⟨by simpa using h.1.1, h.1.2, h.2⟩

theorem collapseSlashRuns_of_clean :
    ∀ s : List Char, cleanSlashes s = true → collapseSlashRuns s = s := by
  intro s
  induction s with
  | nil => intro _; rfl
  | cons c cs ih =>
      intro h
      rcases cleanSlashes_cons_parts h with ⟨hcb, hnd, htail⟩
      cases cs with
      | nil =>
          by_cases hc : isSlash c
          · have : c = '/' := by
              rcases (by simpa [isSlash] using hc : c = '/' ∨ c = '\\') with h1 | h1
              · exact h1
              · exact absurd h1 hcb
            simp [collapseSlashRuns, hc, this]
          · simp [collapseSlashRuns, hc]
      | cons d ds =>
          by_cases hc : isSlash c
          · have hcs : c = '/' := by
              rcases (by simpa [isSlash] using hc : c = '/' ∨ c = '\\') with h1 | h1
              · exact h1
              · exact absurd h1 hcb
            by_cases hd : isSlash d
            · have hds : d = '/' := by
                rcases (by simpa [isSlash] using hd : d = '/' ∨ d = '\\') with h1 | h1
                · exact h1
                · exact absurd h1 (cleanSlashes_cons_parts htail).1
              exfalso
              simp [noDoubleAt, hcs, hds] at hnd
            · simp [collapseSlashRuns, hc, hd, hcs]
              exact ih htail
          · simp [collapseSlashRuns, hc]
            exact ih htail

theorem cleanSlashes_append_of_slashfree :
    ∀ (p rest : List Char), (∀ c ∈ p, isSlash c = false) →
      cleanSlashes rest = true → cleanSlashes (p ++ rest) = true := by
  intro p
  induction p with
  | nil => intro rest _ hr; simpa using hr
  | cons c p' ih =>
      intro rest hfree hr
      have hc : isSlash c = false := hfree c (by simp)
      have hcnb : (c = '\\') = False := by
        simp [isSlash] at hc
        simp [hc.2]
      have hnd : noDoubleAt c (p' ++ rest) = true := by
        cases hpr : p' ++ rest with
        | nil => simp [noDoubleAt]
        | cons d ds =>
            simp [noDoubleAt]
            left
            intro hcs
            rw [hcs] at hc
            simp [isSlash] at hc
      have htail : cleanSlashes (p' ++ rest) = true :=
        ih rest (fun x hx => hfree x (by simp [hx])) hr
      simp [cleanSlashes, hcnb, hnd, htail]

theorem joinSlash_head?_cons {q : List Char} (ps : List (List Char))
    (hq : q ≠ []) : (joinSlash (q :: ps)).head? = q.head? := by
  cases ps with
  | nil => rfl
  | cons r rs =>
      show (q ++ '/' :: joinSlash (r :: rs)).head? = q.head?
      cases q with
      | nil => exact absurd rfl hq
      | cons a as => simp

theorem joinSlash_ne_nil {q : List Char} (ps : List (List Char)) (hq : q ≠ []) :
    joinSlash (q :: ps) ≠ [] := by
  intro hcontra
  have := joinSlash_head?_cons ps hq
  rw [hcontra] at this
  cases q with
  | nil => exact hq rfl
  | cons a as => simp at this

theorem cleanSlashes_joinSlash :
    ∀ parts : List (List Char),
      (∀ p ∈ parts, p ≠ [] ∧ (∀ c ∈ p, isSlash c = false)) →
      cleanSlashes (joinSlash parts) = true := by
  intro parts
  induction parts with
  | nil => intro _; rfl
  | cons p ps ih =>
      intro hall
      cases ps with
      | nil =>
          show cleanSlashes (joinSlash [p]) = true
          have hp := hall p (by simp)
          have : joinSlash [p] = p ++ [] := by simp [joinSlash]
          rw [this]
          exact cleanSlashes_append_of_slashfree p [] hp.2 rfl
      | cons q qs =>
          show cleanSlashes (p ++ '/' :: joinSlash (q :: qs)) = true
          have hp := hall p (by simp)
          have hq := hall q (by simp)
          have hrest : cleanSlashes (joinSlash (q :: qs)) = true :=
            ih (fun r hr => hall r (by simp [hr]))
          have hslashcons : cleanSlashes ('/' :: joinSlash (q :: qs)) = true := by
            have hnd : noDoubleAt '/' (joinSlash (q :: qs)) = true := by
              cases hj : joinSlash (q :: qs) with
              | nil => simp [noDoubleAt]
              | cons d ds =>
                  simp [noDoubleAt]
                  intro hd
                  have hhead : (joinSlash (q :: qs)).head? = q.head? :=
                    joinSlash_head?_cons qs hq.1
                  rw [hj] at hhead
                  cases q with
                  | nil => exact hq.1 rfl
                  | cons a as =>
                      simp at hhead
                      have ha := hq.2 a (by simp)
                      rw [← hhead, hd] at ha
                      simp [isSlash] at ha
            simp [cleanSlashes, hnd, hrest]
          exact cleanSlashes_append_of_slashfree p _ hp.2 hslashcons

theorem splitOnChar_ne_nil (sep : Char) (s : List Char) :
    splitOnChar sep s ≠ [] := by
  cases s with
  | nil => simp [splitOnChar]
  | cons c cs =>
      by_cases hc : c = sep
      · simp [splitOnChar, hc]
      · simp only [splitOnChar, if_neg hc]
        cases hsp : splitOnChar sep cs with
        | nil => simp
        | cons p ps => simp

theorem splitOnChar_of_not_mem {sep : Char} :
    ∀ {s : List Char}, sep ∉ s → splitOnChar sep s = [s] := by
  intro s
  induction s with
  | nil => intro _; rfl
  | cons c cs ih =>
      intro h
      have hc : ¬ c = sep := fun hcc => h (by simp [hcc])
      have hcs : sep ∉ cs := fun hmem => h (by simp [hmem])
      simp only [splitOnChar, if_neg hc, ih hcs]

theorem splitOnChar_append_of_not_mem {sep : Char} :
    ∀ {p : List Char} (rest : List Char), sep ∉ p →
      splitOnChar sep (p ++ rest) =
        (splitOnChar sep rest).modifyHead (fun h => p ++ h) := by
  intro p
  induction p with
  | nil =>
      intro rest _
      cases hsp : splitOnChar sep rest with
      | nil => exact absurd hsp (splitOnChar_ne_nil sep rest)
      | cons q qs => simp [hsp]
  | cons c p' ih =>
      intro rest h
      have hc : ¬ c = sep := fun hcc => h (by simp [hcc])
      have hp' : sep ∉ p' := fun hmem => h (by simp [hmem])
      show splitOnChar sep (c :: (p' ++ rest)) = _
      simp only [splitOnChar, if_neg hc, ih rest hp']
      cases hsp : splitOnChar sep rest with
      | nil => exact absurd hsp (splitOnChar_ne_nil sep rest)
      | cons q qs => simp

theorem splitOnChar_joinSlash :
    ∀ parts : List (List Char), parts ≠ [] →
      (∀ p ∈ parts, '/' ∉ p) →
      splitOnChar '/' (joinSlash parts) = parts := by
  intro parts
  induction parts with
  | nil => intro h; exact absurd rfl h
  | cons p ps ih =>
      intro _ hall
      cases ps with
      | nil =>
          show splitOnChar '/' (joinSlash [p]) = [p]
          have : joinSlash [p] = p := rfl
          rw [this]
          exact splitOnChar_of_not_mem (hall p (by simp))
      | cons q qs =>
          show splitOnChar '/' (p ++ '/' :: joinSlash (q :: qs)) = p :: q :: qs
          rw [splitOnChar_append_of_not_mem _ (hall p (by simp))]
          have hstep : splitOnChar '/' ('/' :: joinSlash (q :: qs)) =
              [] :: splitOnChar '/' (joinSlash (q :: qs)) := by
            simp [splitOnChar]
          rw [hstep, ih (by simp) (fun r hr => hall r (by simp [hr]))]
          simp

theorem mem_joinSlash :
    ∀ (parts : List (List Char)) (x : Char), x ∈ joinSlash parts →
      x = '/' ∨ ∃ p ∈ parts, x ∈ p := by
  intro parts
  induction parts with
  | nil => intro x hx; simp [joinSlash] at hx
  | cons p ps ih =>
      intro x hx
      cases ps with
      | nil =>
          right
          exact ⟨p, by simp, hx⟩
      | cons q qs =>
          have : x ∈ p ++ '/' :: joinSlash (q :: qs) := hx
          rw [List.mem_append] at this
          rcases this with h | h
          · right; exact ⟨p, by simp, h⟩
          · rw [List.mem_cons] at h
            rcases h with h | h
            · left; exact h
            · rcases ih x h with h1 | ⟨r, hr, hxr⟩
              · left; exact h1
              · right; exact ⟨r, by simp [hr], hxr⟩

theorem joinSlash_shape :
    ∀ parts : List (List Char),
      (∀ p ∈ parts, p ≠ [] ∧ StrippedShape p) →
      StrippedShape (joinSlash parts) := by
  intro parts
  induction parts with
  | nil => intro _; constructor <;> intro h hh <;> simp [joinSlash] at hh
  | cons p ps ih =>
      intro hall
      have hp := hall p (by simp)
      cases ps with
      | nil => exact hp.2
      | cons q qs =>
          have hrest : StrippedShape (joinSlash (q :: qs)) :=
            ih (fun r hr => hall r (by simp [hr]))
          have hqne := (hall q (by simp)).1
          constructor
          · intro h hh
            have hj : (joinSlash (p :: q :: qs)).head? = p.head? :=
              joinSlash_head?_cons _ hp.1
            rw [hj] at hh
            exact hp.2.1 h hh
          · intro h hh
            have hne : ('/' :: joinSlash (q :: qs)) ≠ [] := by simp
            have : (joinSlash (p :: q :: qs)).getLast? =
                ('/' :: joinSlash (q :: qs)).getLast? := by
              show (p ++ '/' :: joinSlash (q :: qs)).getLast? = _
              exact List.getLast?_append_of_ne_nil p hne
            rw [this] at hh
            have hjne : joinSlash (q :: qs) ≠ [] := joinSlash_ne_nil qs hqne
            have : ('/' :: joinSlash (q :: qs)).getLast? =
                (joinSlash (q :: qs)).getLast? := by
              cases hj : joinSlash (q :: qs) with
              | nil => exact absurd hj hjne
              | cons a as => simp
            rw [this] at hh
            exact hrest.2 h hh

/-- Unfolding of normalizeGroupPath into its intermediate values. -/
theorem normalizeGroupPath_eq (raw : List Char) :
    normalizeGroupPath raw =
      if raw.isEmpty then none
      else
        (fun parts =>
          if parts.isEmpty then none else some (joinSlash parts))
        (((splitOnChar '/'
            (collapseSlashRuns
              (if quoteWrapped (stripL raw) then ((stripL raw).drop 1).dropLast
               else stripL raw))).map stripL).filter (fun p => !p.isEmpty)) := rfl

/-- Every successful result of normalizeGroupPath is a slash-join of
nonempty, stripped, slash-free parts. -/
theorem normalizeGroupPath_some_parts {raw r : List Char}
    (h : normalizeGroupPath raw = some r) :
    ∃ parts : List (List Char), r = joinSlash parts ∧ parts ≠ [] ∧
      ∀ p ∈ parts, p ≠ [] ∧ stripL p = p ∧ ∀ c ∈ p, isSlash c = false := by
  rw [normalizeGroupPath_eq] at h
  by_cases hraw : raw.isEmpty
  · rw [if_pos hraw] at h; exact absurd h (by simp)
  · rw [if_neg hraw] at h
    simp only at h
    set t2 := collapseSlashRuns
        (if quoteWrapped (stripL raw) then ((stripL raw).drop 1).dropLast
         else stripL raw) with ht2
    set parts := ((splitOnChar '/' t2).map stripL).filter
        (fun p => !p.isEmpty) with hparts
    by_cases hpe : parts.isEmpty
    · rw [if_pos hpe] at h; exact absurd h (by simp)
    · rw [if_neg hpe] at h
      refine ⟨parts, by simpa using h.symm, by simpa using hpe, ?_⟩
      intro p hp
      rw [hparts] at hp
      have hmem := List.mem_filter.mp hp
      have hne : p ≠ [] := by
        have := hmem.2
        simpa using this
      rcases List.mem_map.mp hmem.1 with ⟨q, hq, hpq⟩
      refine ⟨hne, ?_, ?_⟩
      · rw [← hpq, stripL_idem]
      · intro c hc
        have hcq : c ∈ q := by
          rw [← hpq] at hc
          exact mem_of_mem_stripL hc
        have hns : c ≠ '/' := by
          intro hcc
          exact splitOnChar_not_mem '/' t2 q hq (hcc ▸ hcq)
        have hnb : c ≠ '\\' := by
          intro hcc
          have hmem2 : c ∈ t2 := splitOnChar_mem_subset '/' t2 q hq c hcq
          rw [hcc, ht2] at hmem2
          exact collapseSlashRuns_no_backslash _ hmem2
        simp [isSlash, hns, hnb]

/-- Recomputing normalizeGroupPath on one of its own outputs is the
identity provided the output is not itself wrapped in quotes. -/
theorem normalizeGroupPath_restabilizes {raw r : List Char}
    (h : normalizeGroupPath raw = some r) (hq : quoteWrapped r = false) :
    normalizeGroupPath r = some r := by
  rcases normalizeGroupPath_some_parts h with ⟨parts, hr, hpne, hall⟩
  have hshape : StrippedShape r := by
    rw [hr]
    exact joinSlash_shape parts (fun p hp =>
      ⟨(hall p hp).1, by
        have := (hall p hp).2.1
        rw [← this]
        exact stripL_shape p⟩)
  have hrne : r ≠ [] := by
    rcases parts with _ | ⟨p, ps⟩
    · exact absurd rfl hpne
    · rw [hr]; exact joinSlash_ne_nil ps (hall p (by simp)).1
  have hstrip : stripL r = r := stripL_of_shape hshape
  have hclean : collapseSlashRuns r = r := by
    rw [hr]
    exact collapseSlashRuns_of_clean _
      (cleanSlashes_joinSlash parts (fun p hp => ⟨(hall p hp).1, (hall p hp).2.2⟩))
  have hsplit : splitOnChar '/' r = parts := by
    rw [hr]
    exact splitOnChar_joinSlash parts hpne (fun p hp => by
      intro hmem
      have := (hall p hp).2.2 '/' hmem
      simp [isSlash] at this)
  rw [normalizeGroupPath_eq, if_neg (by simpa using hrne)]
  simp only
  rw [hstrip, hq]
  simp only [Bool.false_eq_true, if_false, hclean, hsplit]
  have hmap : parts.map stripL = parts := by
    have : ∀ p ∈ parts, stripL p = p := fun p hp => (hall p hp).2.1
    calc parts.map stripL = parts.map id := List.map_congr_left this
    _ = parts := List.map_id parts
  rw [hmap]
  have hfilter : parts.filter (fun p => !p.isEmpty) = parts :=
    List.filter_eq_self.mpr (fun p hp => by
      simpa using (hall p hp).1)
  rw [hfilter, if_neg (by simpa using hpne), ← hr]

/-- Shape facts about every successful result of normalizeGroupPath:
non-empty, backslash-free, and all slash segments non-empty and
whitespace-trimmed. -/
theorem normalizeGroupPath_result_shape {raw r : List Char}
    (h : normalizeGroupPath raw = some r) :
    r ≠ [] ∧ '\\' ∉ r ∧
    (∀ p ∈ splitOnChar '/' r, p ≠ [] ∧ stripL p = p) := by
  rcases normalizeGroupPath_some_parts h with ⟨parts, hr, hpne, hall⟩
  have hrne : r ≠ [] := by
    rcases parts with _ | ⟨p, ps⟩
    · exact absurd rfl hpne
    · rw [hr]; exact joinSlash_ne_nil ps (hall p (by simp)).1
  refine ⟨hrne, ?_, ?_⟩
  · intro hmem
    rw [hr] at hmem
    rcases mem_joinSlash parts '\\' hmem with h1 | ⟨p, hp, hxp⟩
    · exact absurd h1 (by decide)
    · have := (hall p hp).2.2 '\\' hxp
      simp [isSlash] at this
  · have hsplit : splitOnChar '/' r = parts := by
      rw [hr]
      exact splitOnChar_joinSlash parts hpne (fun p hp => by
        intro hmem
        have := (hall p hp).2.2 '/' hmem
        simp [isSlash] at this)
    rw [hsplit]
    intro p hp
    exact ⟨(hall p hp).1, (hall p hp).2.1⟩

/-- C10: the claim asserts unconditional idempotence of
_normalize_group_path on its own non-None outputs.  It fails on the
input consisting of a doubly single-quoted name: normalizing strips one
quote layer, and normalizing the result strips the remaining layer. -/
theorem C10_counterexample :
    normalizeGroupPath ("''x''".data) = some ("'x'".data) ∧
    normalizeGroupPath ("'x'".data) ≠ some ("'x'".data) := by
  constructor
  · decide
  · decide

/-- C10 (amended): for every input, the result of _normalize_group_path
is either None or a non-empty string with no backslash, no empty
slash-separated segment, and no leading or trailing whitespace in any
segment; moreover re-applying _normalize_group_path to a non-None result
returns it unchanged provided the result is not itself wrapped in
matching single or double quotes (the quote-wrapped case is the
counterexample above). -/
theorem C10_normalize_shape_idem (raw r : List Char)
    (h : normalizeGroupPath raw = some r) :
    r ≠ [] ∧ '\\' ∉ r ∧
    (∀ p ∈ splitOnChar '/' r, p ≠ [] ∧ stripL p = p) ∧
    (quoteWrapped r = false → normalizeGroupPath r = some r) := by
  rcases normalizeGroupPath_result_shape h with ⟨h1, h2, h3⟩
  exact ⟨h1, h2, h3, fun hq => normalizeGroupPath_restabilizes h hq⟩

/-- Witness for C10_normalize_shape_idem at a concrete input containing
a backslash separator and stray whitespace. -/
theorem C10_witness :
    normalizeGroupPath (" Sales\\EU ".data) = some ("Sales/EU".data) ∧
    ("Sales/EU".data ≠ [] ∧ '\\' ∉ ("Sales/EU".data) ∧
      (∀ p ∈ splitOnChar '/' ("Sales/EU".data), p ≠ [] ∧ stripL p = p) ∧
      (quoteWrapped ("Sales/EU".data) = false →
        normalizeGroupPath ("Sales/EU".data) = some ("Sales/EU".data))) :=
  ⟨by decide, C10_normalize_shape_idem (" Sales\\EU ".data) ("Sales/EU".data) (by decide)⟩

/-
  The queryGroup / PBI_QueryGroupOrder pair scanner of _parse_query_groups
  (src/common_functions.py, lines 465-480).  The Python code uses
  re.finditer with the multiline, case-insensitive pattern
    ^\s*queryGroup\s+(NAME)\s*\r?\n\s*annotation\s+PBI_QueryGroupOrder\s*=\s*(\d+)
  where NAME is a single-quoted, double-quoted, or bare (non-whitespace)
  token.  The scanner below reproduces the leftmost, non-overlapping
  matching of finditer: candidate match positions are line starts, greedy
  whitespace runs are followed by literals that start with non-whitespace
  characters, and the whitespace between the name and the annotation
  keyword must contain a newline.
-/

/-- Case-insensitive literal match; returns the remainder on success. -/
def stripLitCI : List Char → List Char → Option (List Char)
  | [], s => some s
  | _ :: _, [] => none
  | l :: ls, c :: cs => if c.toLower = l.toLower then stripLitCI ls cs else none

/-- Case-sensitive literal match; returns the remainder on success. -/
def stripLit : List Char → List Char → Option (List Char)
  | [], s => some s
  | _ :: _, [] => none
  | l :: ls, c :: cs => if c = l then stripLit ls cs else none

/-- Quoted-name alternative of the group regexes: an opening quote, inner
characters other than the quote (at least one unless allowEmpty), and a
closing quote.  Returns the token including its quotes. -/
def matchQuoted (q : Char) (allowEmpty : Bool) (s : List Char) :
    Option (List Char × List Char) :=
  match s with
  | [] => none
  | c :: cs =>
      if c = q then
        let inner := cs.takeWhile (fun x => x ≠ q)
        match cs.drop inner.length with
        | r :: rs =>
            if r = q && (allowEmpty || !inner.isEmpty) then
              some (q :: (inner ++ [q]), rs)
            else none
        | [] => none
      else none

/-- Bare-name alternative: a maximal non-empty run of non-whitespace
characters. -/
def matchBareName (s : List Char) : Option (List Char × List Char) :=
  let name := s.takeWhile (fun c => !pySpace c)
  if name.isEmpty then none else some (name, s.drop name.length)

/-- The name alternation of the group regexes, tried left to right. -/
def matchNameToken (allowEmpty : Bool) (s : List Char) :
    Option (List Char × List Char) :=
  match matchQuoted '\'' allowEmpty s with
  | some r => some r
  | none =>
      match matchQuoted '"' allowEmpty s with
      | some r => some r
      | none => matchBareName s

/-- Numeric value of a digit run. -/
def digitsToNat (ds : List Char) : Nat :=
  ds.foldl (fun n c => n * 10 + (c.toNat - 48)) 0

/-- One queryGroup / PBI_QueryGroupOrder occurrence found by
_parse_query_groups: the raw (possibly quoted) name and the order. -/
structure GroupOcc where
  name : List Char
  order : Nat
deriving DecidableEq, Repr

/-- Attempt to match the _parse_query_groups pattern at a line-start
position; on success returns the occurrence and the text following the
match. -/
def matchGroupOccAt (s : List Char) : Option (GroupOcc × List Char) :=
  let s1 := s.dropWhile pySpace
  match stripLitCI "queryGroup".data s1 with
  | none => none
  | some s2 =>
      match s2 with
      | [] => none
      | c :: _ =>
          if pySpace c then
            let s3 := s2.dropWhile pySpace
            match matchNameToken false s3 with
            | none => none
            | some (name, r4) =>
                if (r4.takeWhile pySpace).contains '\n' then
                  let r5 := r4.dropWhile pySpace
                  match stripLitCI "annotation".data r5 with
                  | none => none
                  | some r6 =>
                      match r6 with
                      | [] => none
                      | c6 :: _ =>
                          if pySpace c6 then
                            let r7 := r6.dropWhile pySpace
                            match stripLitCI "PBI_QueryGroupOrder".data r7 with
                            | none => none
                            | some r8 =>
                                let r9 := r8.dropWhile pySpace
                                match r9 with
                                | '=' :: r9tail =>
                                    let r10 := r9tail.dropWhile pySpace
                                    let digits := r10.takeWhile Char.isDigit
                                    if digits.isEmpty then none
                                    else
                                      some (⟨name, digitsToNat digits⟩,
                                        r10.drop digits.length)
                                | _ => none
                          else none
                else none
          else none

/-- Fuel-driven scan reproducing re.finditer for the group pattern: a
match may begin only at a line start, matches do not overlap, and the
scan resumes immediately after each match. -/
def findGroupOccsGo : Nat → List Char → Bool → List GroupOcc
  | 0, _, _ => []
  | fuel + 1, s, atLS =>
      match (if atLS then matchGroupOccAt s else none) with
      | some (occ, rest) => occ :: findGroupOccsGo fuel rest false
      | none =>
          match s with
          | [] => []
          | c :: cs => findGroupOccsGo fuel cs (c = '\n')

/-- All occurrences of the _parse_query_groups pattern, in text order. -/
def findGroupOccs (text : List Char) : List GroupOcc :=
  findGroupOccsGo (text.length + 1) text true

/-- Dictionary update step of _parse_query_groups: record the order for a
key, keeping the smaller value when the key is already present. -/
def updMin : List (List Char × Nat) → List Char → Nat → List (List Char × Nat)
  | [], k, v => [(k, v)]
  | (k', v') :: rest, k, v =>
      if k' = k then (k', if v < v' then v else v') :: rest
      else (k', v') :: updMin rest k v

/-- One fold step of _parse_query_groups: normalize the matched name and,
when it normalizes to a non-empty path, record the order keeping the
minimum. -/
def pqgStep (acc : List (List Char × Nat)) (occ : GroupOcc) :
    List (List Char × Nat) :=
  match normalizeGroupPath occ.name with
  | none => acc
  | some key => updMin acc key occ.order

/-- Embedding of _parse_query_groups (src/common_functions.py, lines
465-480): scan for queryGroup lines followed by a PBI_QueryGroupOrder
line, normalize each name, skip names that normalize to None, and keep
the minimum order per normalized key. -/
def parseQueryGroups (text : List Char) : List (List Char × Nat) :=
  (findGroupOccs text).foldl pqgStep []

/-- The order carried by an occurrence when its normalized name is k. -/
def pqgKeyOrder (k : List Char) (o : GroupOcc) : Option Nat :=
  if normalizeGroupPath o.name = some k then some o.order else none

/-- Order values of all occurrences whose normalized name equals k. -/
def groupOccOrders (text : List Char) (k : List Char) : List Nat :=
  (findGroupOccs text).filterMap (pqgKeyOrder k)

/-- Minimum of a list of naturals, None on the empty list. -/
def minNat? : List Nat → Option Nat
  | [] => none
  | v :: vs =>
      some (match minNat? vs with
            | none => v
            | some m => if v < m then v else m)

theorem lookup_updMin_self (m : List (List Char × Nat)) (k : List Char)
    (v : Nat) :
    List.lookup k (updMin m k v) =
      some (match List.lookup k m with
            | none => v
            | some v' => if v < v' then v else v') := by
  induction m with
  | nil => simp [updMin, List.lookup]
  | cons kv rest ih =>
      rcases kv with ⟨k', v'⟩
      by_cases hk : k' = k
      · subst hk
        simp [updMin, List.lookup]
      · have hne : (k == k') = false := by
          simp
          exact fun hc => hk hc.symm
        simp only [updMin, if_neg hk, List.lookup, hne]
        exact ih

theorem lookup_updMin_ne (m : List (List Char × Nat)) (k k' : List Char)
    (v : Nat) (h : k' ≠ k) :
    List.lookup k' (updMin m k v) = List.lookup k' m := by
  induction m with
  | nil =>
      have hne : (k' == k) = false := by simp [h]
      simp [updMin, List.lookup, hne]
  | cons kv rest ih =>
      rcases kv with ⟨k0, v0⟩
      by_cases hk : k0 = k
      · subst hk
        have hne : (k' == k0) = false := by simp [h]
        simp [updMin, List.lookup, hne]
      · by_cases hk' : k' = k0
        · subst hk'
          simp [updMin, if_neg hk, List.lookup]
        · have hne : (k' == k0) = false := by simp [hk']
          simp only [updMin, if_neg hk, List.lookup, hne]
          exact ih

/-- Combination of an accumulator entry with the minimum of later
occurrences. -/
def optMin : Option Nat → Option Nat → Option Nat
  | none, b => b
  | some a, none => some a
  | some a, some b => some (if a < b then a else b)

theorem pqgStep_none {o : GroupOcc} (acc : List (List Char × Nat))
    (h : normalizeGroupPath o.name = none) : pqgStep acc o = acc := by
  simp [pqgStep, h]

theorem pqgStep_some {o : GroupOcc} {key : List Char}
    (acc : List (List Char × Nat)) (h : normalizeGroupPath o.name = some key) :
    pqgStep acc o = updMin acc key o.order := by
  simp [pqgStep, h]

theorem pqgKeyOrder_none {o : GroupOcc} {k : List Char}
    (h : normalizeGroupPath o.name ≠ some k) : pqgKeyOrder k o = none := by
  simp [pqgKeyOrder, h]

theorem pqgKeyOrder_some {o : GroupOcc} {k : List Char}
    (h : normalizeGroupPath o.name = some k) :
    pqgKeyOrder k o = some o.order := by
  simp [pqgKeyOrder, h]

theorem parseQueryGroups_fold_char (occs : List GroupOcc)
    (m : List (List Char × Nat)) (k : List Char) :
    List.lookup k (occs.foldl pqgStep m) =
      optMin (List.lookup k m) (minNat? (occs.filterMap (pqgKeyOrder k))) := by
  induction occs generalizing m with
  | nil =>
      simp [minNat?]
      cases List.lookup k m <;> simp [optMin]
  | cons o os ih =>
      rcases hnorm : normalizeGroupPath o.name with _ | key
      · rw [List.foldl_cons, pqgStep_none m hnorm, List.filterMap_cons,
          pqgKeyOrder_none (by simp [hnorm])]
        exact ih m
      · by_cases hkey : key = k
        · rw [hkey] at hnorm
          rw [List.foldl_cons, pqgStep_some m hnorm, List.filterMap_cons,
            pqgKeyOrder_some hnorm]
          rw [ih (updMin m k o.order), lookup_updMin_self]
          rcases hlk : List.lookup k m with _ | a <;>
            rcases hmin : minNat? (os.filterMap (pqgKeyOrder k)) with _ | b <;>
            simp [optMin, minNat?, hmin] <;>
            (try (split_ifs <;> omega))
        · rw [List.foldl_cons, pqgStep_some m hnorm, List.filterMap_cons,
            pqgKeyOrder_none (by rw [hnorm]; simp [hkey])]
          rw [ih (updMin m key o.order), lookup_updMin_ne m key k o.order
            (fun hc => hkey hc.symm)]

theorem minNat?_isSome_iff (l : List Nat) : (minNat? l).isSome ↔ l ≠ [] := by
  cases l <;> simp [minNat?]

/-- C8: for every model text, the mapping built by _parse_query_groups is
keyed exactly by the normalizations of the names of queryGroup lines that
are immediately followed (up to whitespace) by a PBI_QueryGroupOrder
line, and the value stored for each key is the minimum order value among
all occurrences normalizing to that key; every key has the normalized
shape (non-empty, backslash-free, no empty or untrimmed segment). -/
theorem C8_parse_query_groups_min (text : List Char) (k : List Char) :
    List.lookup k (parseQueryGroups text) = minNat? (groupOccOrders text k) ∧
    ((List.lookup k (parseQueryGroups text)).isSome ↔
      ∃ o ∈ findGroupOccs text, normalizeGroupPath o.name = some k) ∧
    ((List.lookup k (parseQueryGroups text)).isSome →
      k ≠ [] ∧ '\\' ∉ k ∧ ∀ p ∈ splitOnChar '/' k, p ≠ [] ∧ stripL p = p) := by
  have hmain : List.lookup k (parseQueryGroups text) =
      minNat? (groupOccOrders text k) := by
    unfold parseQueryGroups groupOccOrders
    rw [parseQueryGroups_fold_char]
    simp [List.lookup, optMin]
  refine ⟨hmain, ?_, ?_⟩
  · rw [hmain, minNat?_isSome_iff]
    unfold groupOccOrders
    constructor
    · intro hne
      rcases List.exists_mem_of_ne_nil _ hne with ⟨v, hv⟩
      rcases List.mem_filterMap.mp hv with ⟨o, ho, heq⟩
      refine ⟨o, ho, ?_⟩
      by_cases hcase : normalizeGroupPath o.name = some k
      · exact hcase
      · rw [pqgKeyOrder_none hcase] at heq
        simp at heq
    · rintro ⟨o, ho, heq⟩
      intro hnil
      have hmem : o.order ∈ List.filterMap (pqgKeyOrder k) (findGroupOccs text) :=
        List.mem_filterMap.mpr ⟨o, ho, pqgKeyOrder_some heq⟩
      rw [hnil] at hmem
      simp at hmem
  · intro hsome
    rw [hmain, minNat?_isSome_iff] at hsome
    unfold groupOccOrders at hsome
    rcases List.exists_mem_of_ne_nil _ hsome with ⟨v, hv⟩
    rcases List.mem_filterMap.mp hv with ⟨o, _, heq⟩
    by_cases hcase : normalizeGroupPath o.name = some k
    · exact normalizeGroupPath_result_shape hcase
    · rw [pqgKeyOrder_none hcase] at heq
      simp at heq

/-
  Embedding of _update_model_tmdl (src/Tabs/tab_power_query.py, lines
  1164-1228; the same method appears in src/Tabs/tab_tables_elements.py)
  and _parse_query_order (src/common_functions.py, lines 452-462).
-/

/-- Detection of the file's line ending: a carriage-return/line-feed pair
anywhere in the text selects CRLF. -/
def hasCRLF : List Char → Bool
  | '\r' :: '\n' :: _ => true
  | _ :: rest => hasCRLF rest
  | [] => false

/-- Generalized join with a separator string. -/
def joinWith (sep : List Char) : List (List Char) → List Char
  | [] => []
  | [x] => x
  | x :: y :: xs => x ++ sep ++ joinWith sep (y :: xs)

/-- Split a whitespace run at its last newline: the part through the last
newline and the suffix after it; None when the run has no newline. -/
def splitAtLastNewline (w : List Char) : Option (List Char × List Char) :=
  if w.contains '\n' then
    let suf := (w.reverse.takeWhile (fun c => c ≠ '\n')).reverse
    some (w.take (w.length - suf.length), suf)
  else none

/-- Indentation character test of the writer regex class [ \t]. -/
def isIndentChar (c : Char) : Bool := c = ' ' || c = '\t'

/-- Attempt to match the writer's queryGroup-block pattern at a line
start (case-sensitive, indent captured from [ \t]*, empty quoted names
allowed, trailing whitespace swallowed by the greedy tail).  On success
returns the indent capture, the annotation-indent capture, the remaining
text after the match, and whether the match ended just after a newline. -/
def matchWriterGroupAt (s : List Char) :
    Option (List Char × List Char × List Char × Bool) :=
  let indent := s.takeWhile isIndentChar
  let s1 := s.drop indent.length
  match stripLit "queryGroup".data s1 with
  | none => none
  | some s2 =>
      match s2 with
      | [] => none
      | c :: _ =>
          if pySpace c then
            let s3 := s2.dropWhile pySpace
            match matchNameToken true s3 with
            | none => none
            | some (_, r4) =>
                let w := r4.takeWhile pySpace
                match splitAtLastNewline w with
                | none => none
                | some (_, annoIndent) =>
                    if annoIndent.all isIndentChar then
                      let r5 := r4.drop w.length
                      match stripLit "annotation".data r5 with
                      | none => none
                      | some r6 =>
                          match r6 with
                          | [] => none
                          | c6 :: _ =>
                              if pySpace c6 then
                                let r7 := r6.dropWhile pySpace
                                match stripLit "PBI_QueryGroupOrder".data r7 with
                                | none => none
                                | some r8 =>
                                    let r9 := r8.dropWhile pySpace
                                    match r9 with
                                    | '=' :: r9tail =>
                                        let r10 := r9tail.dropWhile pySpace
                                        let digits := r10.takeWhile Char.isDigit
                                        if digits.isEmpty then none
                                        else
                                          let afterDigits := r10.drop digits.length
                                          let tailWs := afterDigits.takeWhile pySpace
                                          let rest := afterDigits.drop tailWs.length
                                          some (indent, annoIndent, rest,
                                            tailWs.getLast? = some '\n')
                                    | _ => none
                              else none
                    else none
          else none

/-- group_pattern.sub: remove every matched queryGroup block, scanning
line starts left to right without overlap. -/
def groupSubGo : Nat → List Char → Bool → List Char
  | 0, s, _ => s
  | fuel + 1, s, atLS =>
      match (if atLS then matchWriterGroupAt s else none) with
      | some (_, _, rest, endLS) => groupSubGo fuel rest endLS
      | none =>
          match s with
          | [] => []
          | c :: cs => c :: groupSubGo fuel cs (c = '\n')

/-- Removal of all queryGroup blocks from the model text. -/
def groupSub (text : List Char) : List Char :=
  groupSubGo (text.length + 1) text true

/-- group_pattern.search: the indent captures of the first queryGroup
block found in the original text. -/
def findWriterGroupGo : Nat → List Char → Bool → Option (List Char × List Char)
  | 0, _, _ => none
  | fuel + 1, s, atLS =>
      match (if atLS then matchWriterGroupAt s else none) with
      | some (ind, annoInd, _, _) => some (ind, annoInd)
      | none =>
          match s with
          | [] => none
          | c :: cs => findWriterGroupGo fuel cs (c = '\n')

/-- First queryGroup block of the model text, if any. -/
def findWriterGroup (text : List Char) : Option (List Char × List Char) :=
  findWriterGroupGo (text.length + 1) text true

/-- Attempt to match the PBI_QueryOrder annotation pattern at a
position: the literal keywords joined by whitespace, an equals sign, and
a lazily-matched bracketed group ending at the first closing bracket.
Returns the prefix capture (through the whitespace after the equals
sign), the bracket capture, and the remaining text. -/
def matchOrderAt (s : List Char) : Option (List Char × List Char × List Char) :=
  match stripLit "annotation".data s with
  | none => none
  | some s1 =>
      match s1 with
      | [] => none
      | c :: _ =>
          if pySpace c then
            let s2 := s1.dropWhile pySpace
            match stripLit "PBI_QueryOrder".data s2 with
            | none => none
            | some s3 =>
                let s4 := s3.dropWhile pySpace
                match s4 with
                | '=' :: s4tail =>
                    let s5 := s4tail.dropWhile pySpace
                    match s5 with
                    | '[' :: s5tail =>
                        let inner := s5tail.takeWhile (fun c => c ≠ ']')
                        match s5tail.drop inner.length with
                        | ']' :: rest =>
                            some (s.take (s.length - s5.length),
                              '[' :: (inner ++ [']']), rest)
                        | _ => none
                    | _ => none
                | _ => none
          else none

/-- order_pattern.search: the first match, split as the text before the
match, the two captures, and the text after the match. -/
def findOrderSplitGo :
    Nat → List Char → List Char → Option (List Char × List Char × List Char × List Char)
  | 0, _, _ => none
  | fuel + 1, s, acc =>
      match matchOrderAt s with
      | some (g1, g2, rest) => some (acc.reverse, g1, g2, rest)
      | none =>
          match s with
          | [] => none
          | c :: cs => findOrderSplitGo fuel cs (c :: acc)

/-- Leftmost PBI_QueryOrder annotation match in the text. -/
def findOrderSplit (text : List Char) :
    Option (List Char × List Char × List Char × List Char) :=
  findOrderSplitGo (text.length + 1) text []

/-
  A model of ast.literal_eval restricted to the list literals this
  program reads and writes: bracketed lists whose items are string
  literals (with adjacent string literals concatenated, as in Python) or
  integers, separated by commas with optional trailing comma.  A raw
  newline inside a string literal, an unterminated literal, or any other
  shape is a parse failure, which _parse_query_order turns into an empty
  result.
-/

/-- An evaluated Python literal element: a string, or a non-string. -/
inductive PyLit where
  | str (s : List Char)
  | other
deriving DecidableEq, Repr

/-- Python escape decoding for the single-character escapes; unknown
escapes keep the backslash. -/
def pyEscape (c : Char) : List Char :=
  if c = 'n' then ['\n']
  else if c = 't' then ['\t']
  else if c = 'r' then ['\r']
  else if c = '\\' then ['\\']
  else if c = '\'' then ['\'']
  else if c = '"' then ['"']
  else if c = '0' then ['\x00']
  else ['\\', c]

/-- Lex one quoted string literal; fails on a raw newline or an
unterminated literal. -/
def pyLexStrGo (q : Char) : Nat → List Char → List Char → Option (List Char × List Char)
  | 0, _, _ => none
  | _, [], _ => none
  | fuel + 1, c :: cs, acc =>
      if c = q then some (acc.reverse, cs)
      else if c = '\\' then
        match cs with
        | [] => none
        | e :: cs' => pyLexStrGo q fuel cs' ((pyEscape e).reverse ++ acc)
      else if c = '\n' || c = '\r' then none
      else pyLexStrGo q fuel cs (c :: acc)

/-- Lex a string literal starting at the given position. -/
def pyLexStr (s : List Char) : Option (List Char × List Char) :=
  match s with
  | '\'' :: rest => pyLexStrGo '\'' (rest.length + 1) rest []
  | '"' :: rest => pyLexStrGo '"' (rest.length + 1) rest []
  | _ => none

/-- Concatenation of adjacent string literals, as Python performs inside
a single expression. -/
def pyStrGroupGo : Nat → List Char → List Char → (List Char × List Char)
  | 0, v, r => (v, r)
  | fuel + 1, v, r =>
      match pyLexStr (r.dropWhile pySpace) with
      | some (v2, r2) => pyStrGroupGo fuel (v ++ v2) r2
      | none => (v, r)

/-- One string-group element: a string literal possibly followed by
further adjacent string literals. -/
def pyStrGroup (s : List Char) : Option (List Char × List Char) :=
  match pyLexStr s with
  | none => none
  | some (v, r) => some (pyStrGroupGo (r.length + 1) v r)

/-- An integer literal with optional sign. -/
def pyNumber (s : List Char) : Option (List Char) :=
  let body := match s with
              | '-' :: rest => rest
              | rest => rest
  let digits := body.takeWhile Char.isDigit
  if digits.isEmpty then none else some (body.drop digits.length)

/-- Items of a list literal after the opening bracket: elements separated
by commas, optional trailing comma, closed by a bracket followed only by
whitespace. -/
def pyItemsGo : Nat → List Char → Option (List PyLit)
  | 0, _ => none
  | fuel + 1, s =>
      let s1 := s.dropWhile pySpace
      match s1 with
      | ']' :: rest => if (rest.dropWhile pySpace).isEmpty then some [] else none
      | _ =>
          match pyStrGroup s1 with
          | some (v, r) =>
              let r1 := r.dropWhile pySpace
              match r1 with
              | ',' :: r2 => (pyItemsGo fuel r2).map (PyLit.str v :: ·)
              | ']' :: rest =>
                  if (rest.dropWhile pySpace).isEmpty then some [PyLit.str v]
                  else none
              | _ => none
          | none =>
              match pyNumber s1 with
              | some r =>
                  let r1 := r.dropWhile pySpace
                  match r1 with
                  | ',' :: r2 => (pyItemsGo fuel r2).map (PyLit.other :: ·)
                  | ']' :: rest =>
                      if (rest.dropWhile pySpace).isEmpty then some [PyLit.other]
                      else none
                  | _ => none
              | none => none

/-- Evaluation of a bracketed list literal. -/
def pyEvalList (g : List Char) : Option (List PyLit) :=
  match g with
  | '[' :: rest => pyItemsGo (rest.length + 1) rest
  | _ => none

/-- Embedding of _parse_query_order (src/common_functions.py, lines
452-462): search for the PBI_QueryOrder annotation, evaluate its
bracketed list literal, keep the string items; absence or a malformed
literal yields the empty list. -/
def parseQueryOrder (text : List Char) : List (List Char) :=
  match findOrderSplit text with
  | none => []
  | some (_, _, g2, _) =>
      match pyEvalList g2 with
      | none => []
      | some items =>
          items.filterMap (fun item =>
            match item with
            | PyLit.str s => some s
            | PyLit.other => none)

/-- Decimal digit string of a natural number. -/
def natDigits (n : Nat) : List Char := (Nat.repr n).data

/-- Embedding of _update_model_tmdl (src/Tabs/tab_power_query.py, lines
1164-1228): detect the line ending, record the indents of the first
queryGroup block, delete all queryGroup blocks, find the PBI_QueryOrder
annotation (None models the ValueError when it is missing), rebuild the
order list and the group blocks, and splice them into the text.  The
returned value is the new file content (the caller writes it only when
it differs from the original). -/
def updateModelTmdl (origText : List Char)
    (folderPaths tableOrder : List (List Char)) : Option (List Char) :=
  let newline := if hasCRLF origText then ['\r', '\n'] else ['\n']
  let firstGroup := findWriterGroup origText
  let text := groupSub origText
  match findOrderSplit text with
  | none => none
  | some (beforeOrder, g1, _, afterOrder) =>
      let orderIndent := (beforeOrder.reverse.takeWhile (fun c => c ≠ '\n')).reverse
      let indentUnit := if orderIndent.contains '\t' then ['\t'] else "    ".data
      let groupIndent := match firstGroup with
                         | some (gi, _) => gi
                         | none => orderIndent
      let annoIndent := match firstGroup with
                        | some (_, ai) => ai
                        | none => groupIndent ++ indentUnit
      let newListRepr :=
        if tableOrder.isEmpty then "[]".data
        else
          let itemIndent := orderIndent ++ indentUnit
          let items := tableOrder.map
            (fun name => itemIndent ++ ('"' :: (name ++ ['"'])))
          ('[' :: newline) ++ joinWith newline items ++ newline ++
            orderIndent ++ [']']
      let updatedOrderBlock := g1 ++ newListRepr
      let groupBlock :=
        if folderPaths.isEmpty then []
        else
          let groupLines := (folderPaths.enum.map
            (fun ip =>
              [groupIndent ++ ("queryGroup '".data ++ (ip.2 ++ ['\''])),
               annoIndent ++ ("annotation PBI_QueryGroupOrder = ".data ++
                 natDigits ip.1)])).flatten
          joinWith newline groupLines ++ newline
      let beforeOrder' :=
        if !groupBlock.isEmpty && !beforeOrder.isEmpty &&
            !(beforeOrder.getLast? = some '\n' || beforeOrder.getLast? = some '\r')
        then beforeOrder ++ newline
        else beforeOrder
      some (beforeOrder' ++ groupBlock ++ updatedOrderBlock ++ afterOrder)

/-- C1: the claim (parse_query_order recovers exactly the table list L
from the rewritten model text) is the spec's stated round-trip, and the
code breaks it: _update_model_tmdl writes the list items separated only
by newlines, without commas, and ast.literal_eval then concatenates the
adjacent string literals, so reparsing a two-table order yields the
single concatenated name.  This theorem evaluates the embedded writer
and parser at the failing input: rewriting with table order A, B and
folder list Sales and reparsing yields the one-element list AB, not the
original two-element list.  The group mapping half is also evaluated and
does recover the folder at order 0. -/
theorem C1_round_trip_eval :
    (updateModelTmdl
        ("model Model\n\tannotation PBI_QueryOrder = [\"A\", \"B\"]\n".data)
        ["Sales".data] ["A".data, "B".data]).map parseQueryOrder =
      some [("AB".data)] ∧
    some [("AB".data)] ≠ some [("A".data), ("B".data)] ∧
    (updateModelTmdl
        ("model Model\n\tannotation PBI_QueryOrder = [\"A\", \"B\"]\n".data)
        ["Sales".data] ["A".data, "B".data]).map parseQueryGroups =
      some [("Sales".data, 0)] := by
  refine ⟨by decide, by decide, by decide⟩

/-
  Embedding of _update_table_definition (src/Tabs/tab_power_query.py,
  lines 1230-1285; the identical method appears in
  src/Tabs/tab_tables_elements.py, lines 2845-2900).  The file is read
  with readlines (lines keep their terminators), scanned for the first
  mode: line and the first queryGroup line, and the queryGroup line is
  updated, inserted after the mode: line, or removed; on removal an
  immediately following whitespace-only line is also removed.  The file
  is rewritten only when something changed.
-/

/-- Python readlines: split after every newline, keeping terminators; a
final unterminated chunk is its own line. -/
def pythonReadlinesGo : List Char → List Char → List (List Char)
  | [], acc => if acc.isEmpty then [] else [acc.reverse]
  | c :: cs, acc =>
      if c = '\n' then (acc.reverse ++ ['\n']) :: pythonReadlinesGo cs []
      else pythonReadlinesGo cs (c :: acc)

/-- Python readlines on a whole text. -/
def pythonReadlines (text : List Char) : List (List Char) :=
  pythonReadlinesGo text []

/-- Python str.endswith for list-of-character strings. -/
def endsWithL (suf s : List Char) : Bool :=
  s.reverse.take suf.length == suf.reverse

/-- Line-ending detection loop of _update_table_definition: the ending
of the first line that has one, defaulting to a bare newline. -/
def detectLineEnding : List (List Char) → List Char
  | [] => ['\n']
  | l :: rest =>
      if endsWithL ['\r', '\n'] l then ['\r', '\n']
      else if endsWithL ['\n'] l then ['\n']
      else detectLineEnding rest

/-- Test for the regex mode\s*: anchored at the start of the lstripped
line, case-insensitive. -/
def isModeLine (line : List Char) : Bool :=
  match stripLitCI "mode".data (lstripL line) with
  | none => false
  | some r =>
      match r.dropWhile pySpace with
      | ':' :: _ => true
      | _ => false

/-- Test for the regex querygroup\b anchored at the start of the
lstripped line, case-insensitive. -/
def isQueryGroupLine (line : List Char) : Bool :=
  match stripLitCI "queryGroup".data (lstripL line) with
  | none => false
  | some r =>
      match r with
      | [] => true
      | c :: _ => !(c.isAlphanum || c = '_')

/-- The replacement queryGroup line: the existing queryGroup line's
indentation when present (mode line's indentation otherwise), the quoted
group path, and the detected line ending. -/
def updNewLine (lines : List (List Char)) (path : List Char) : List Char :=
  let modeIndent :=
    match lines.findIdx? isModeLine with
    | some mi => (lines.getD mi []).takeWhile pySpace
    | none => []
  let queryIndent :=
    match lines.findIdx? isQueryGroupLine with
    | some qi => (lines.getD qi []).takeWhile pySpace
    | none => []
  let targetIndent := if queryIndent.isEmpty then modeIndent else queryIndent
  targetIndent ++ ("queryGroup: '".data ++ (path ++ ('\'' :: detectLineEnding lines)))

/-- Embedding of _update_table_definition on the line list: Some lines
when the function rewrites the file, None when it returns without
writing. -/
def updateTableDefinition (lines : List (List Char))
    (groupPath : Option (List Char)) : Option (List (List Char)) :=
  if lines.isEmpty then none
  else
    match lines.findIdx? isModeLine with
    | none => none
    | some modeIdx =>
        match groupPath with
        | none =>
            match lines.findIdx? isQueryGroupLine with
            | none => none
            | some qi =>
                match (lines.eraseIdx qi).get? qi with
                | some l =>
                    if (stripL l).isEmpty then
                      some ((lines.eraseIdx qi).eraseIdx qi)
                    else some (lines.eraseIdx qi)
                | none => some (lines.eraseIdx qi)
        | some path =>
            match lines.findIdx? isQueryGroupLine with
            | some qi =>
                if lines.getD qi [] = updNewLine lines path then none
                else some (lines.set qi (updNewLine lines path))
            | none =>
                some (lines.take (modeIdx + 1) ++
                  updNewLine lines path :: lines.drop (modeIdx + 1))

/-- The same operation on whole file text: readlines, edit, writelines;
the text is unchanged when the function does not write. -/
def updateTableDefinitionText (text : List Char)
    (groupPath : Option (List Char)) : List Char :=
  match updateTableDefinition (pythonReadlines text) groupPath with
  | none => text
  | some ls => ls.flatten

/-- C6: the claim says _update_table_definition changes only the
queryGroup line and leaves every other line byte-identical.  When the
group path is removed, the code also deletes one immediately following
whitespace-only line, so a blank separator line after the queryGroup
line disappears as well: the claim fails on the concrete file below. -/
theorem C6_counterexample :
    updateTableDefinition
        [("table t\n".data), ("\tmode: import\n".data),
         ("\tqueryGroup: 'A'\n".data), ("\n".data), ("\tcolumn c\n".data)]
        none =
      some [("table t\n".data), ("\tmode: import\n".data),
        ("\tcolumn c\n".data)] ∧
    ("\n".data) ∈
      [("table t\n".data), ("\tmode: import\n".data),
       ("\tqueryGroup: 'A'\n".data), ("\n".data), ("\tcolumn c\n".data)] ∧
    ("\n".data) ∉
      [("table t\n".data), ("\tmode: import\n".data), ("\tcolumn c\n".data)] := by
  refine ⟨by decide, by decide, by decide⟩

/-- C6 (amended): whenever _update_table_definition rewrites the file,
the new line list is the old one with exactly one of three splices at
the first queryGroup line: removal of that line (possibly together with
one immediately following whitespace-only line), replacement of that
line by the canonical queryGroup line, or insertion of the canonical
queryGroup line immediately after the first mode: line; all other lines
are carried over unchanged by the splice. -/
theorem C6_update_table_frame (lines : List (List Char))
    (gp : Option (List Char)) (out : List (List Char))
    (h : updateTableDefinition lines gp = some out) :
    (gp = none ∧ ∃ qi, lines.findIdx? isQueryGroupLine = some qi ∧
       (out = lines.eraseIdx qi ∨ out = (lines.eraseIdx qi).eraseIdx qi)) ∨
    (∃ path qi, gp = some path ∧ lines.findIdx? isQueryGroupLine = some qi ∧
       out = lines.set qi (updNewLine lines path)) ∨
    (∃ path mi, gp = some path ∧ lines.findIdx? isQueryGroupLine = none ∧
       lines.findIdx? isModeLine = some mi ∧
       out = lines.take (mi + 1) ++ updNewLine lines path :: lines.drop (mi + 1)) := by
  unfold updateTableDefinition at h
  split at h
  next => exact absurd h (by simp)
  next =>
    split at h
    next => exact absurd h (by simp)
    next modeIdx hmode =>
      split at h
      next =>
        split at h
        next => exact absurd h (by simp)
        next qi hqi =>
          split at h
          next l hl =>
            split at h
            next hblank =>
              exact Or.inl ⟨rfl, qi, hqi, Or.inr (by simpa using h.symm)⟩
            next hblank =>
              exact Or.inl ⟨rfl, qi, hqi, Or.inl (by simpa using h.symm)⟩
          next hl =>
            exact Or.inl ⟨rfl, qi, hqi, Or.inl (by simpa using h.symm)⟩
      next path =>
        split at h
        next qi hqi =>
          split at h
          next heq => exact absurd h (by simp)
          next heq =>
            exact Or.inr (Or.inl ⟨path, qi, rfl, hqi, by simpa using h.symm⟩)
        next hqi =>
          exact Or.inr (Or.inr ⟨path, modeIdx, rfl, hqi, hmode,
            by simpa using h.symm⟩)

/-- Witness for C6_update_table_frame: the update case at a concrete
file whose queryGroup line uses the legacy unquoted form. -/
theorem C6_witness :
    ((some ("G".data) : Option (List Char)) = none ∧ ∃ qi,
       ([("table t\n".data), ("\tmode: import\n".data),
         ("\tqueryGroup: old\n".data)]).findIdx? isQueryGroupLine = some qi ∧
       ((["table t\n".data, "\tmode: import\n".data,
          "\tqueryGroup: 'G'\n".data] : List (List Char)) =
            ([("table t\n".data), ("\tmode: import\n".data),
              ("\tqueryGroup: old\n".data)]).eraseIdx qi ∨
        (["table t\n".data, "\tmode: import\n".data,
          "\tqueryGroup: 'G'\n".data] : List (List Char)) =
            (([("table t\n".data), ("\tmode: import\n".data),
               ("\tqueryGroup: old\n".data)]).eraseIdx qi).eraseIdx qi)) ∨
    (∃ path qi, (some ("G".data) : Option (List Char)) = some path ∧
       ([("table t\n".data), ("\tmode: import\n".data),
         ("\tqueryGroup: old\n".data)]).findIdx? isQueryGroupLine = some qi ∧
       (["table t\n".data, "\tmode: import\n".data,
         "\tqueryGroup: 'G'\n".data] : List (List Char)) =
         ([("table t\n".data), ("\tmode: import\n".data),
           ("\tqueryGroup: old\n".data)]).set qi
             (updNewLine [("table t\n".data), ("\tmode: import\n".data),
               ("\tqueryGroup: old\n".data)] path)) ∨
    (∃ path mi, (some ("G".data) : Option (List Char)) = some path ∧
       ([("table t\n".data), ("\tmode: import\n".data),
         ("\tqueryGroup: old\n".data)]).findIdx? isQueryGroupLine = none ∧
       ([("table t\n".data), ("\tmode: import\n".data),
         ("\tqueryGroup: old\n".data)]).findIdx? isModeLine = some mi ∧
       (["table t\n".data, "\tmode: import\n".data,
         "\tqueryGroup: 'G'\n".data] : List (List Char)) =
         ([("table t\n".data), ("\tmode: import\n".data),
           ("\tqueryGroup: old\n".data)]).take (mi + 1) ++
           updNewLine [("table t\n".data), ("\tmode: import\n".data),
             ("\tqueryGroup: old\n".data)] path ::
           ([("table t\n".data), ("\tmode: import\n".data),
             ("\tqueryGroup: old\n".data)]).drop (mi + 1)) :=
  C6_update_table_frame
    [("table t\n".data), ("\tmode: import\n".data), ("\tqueryGroup: old\n".data)]
    (some ("G".data))
    ["table t\n".data, "\tmode: import\n".data, "\tqueryGroup: 'G'\n".data]
    (by decide)

/-- On a file whose lines all carry the same clean terminator, the
line-ending detection returns that terminator. -/
theorem detectLineEnding_uniform (lines : List (List Char)) (eol : List Char)
    (heol : eol = ['\n'] ∨ eol = ['\r', '\n'])
    (hterm : ∀ l ∈ lines, ∃ body, l = body ++ eol ∧ '\n' ∉ body ∧ '\r' ∉ body)
    (hne : lines ≠ []) : detectLineEnding lines = eol := by
  cases lines with
  | nil => exact absurd rfl hne
  | cons l rest =>
      rcases hterm l (by simp) with ⟨body, hb, hnl, hnr⟩
      rcases heol with he | he
      · subst he
        have hcrlf : endsWithL ['\r', '\n'] l = false := by
          rw [hb]
          unfold endsWithL
          simp only [List.reverse_append]
          cases hbr : body.reverse with
          | nil => simp
          | cons b bs =>
              simp only [List.reverse_cons, List.reverse_nil, List.nil_append,
                List.cons_append, List.take]
              simp only [beq_eq_false_iff_ne, ne_eq]
              intro hcontra
              have hb' : b = '\r' := by
                have := List.cons.inj hcontra
                have := List.cons.inj this.2
                exact this.1
              have : b ∈ body := by
                have : b ∈ body.reverse := by rw [hbr]; simp
                simpa using this
              rw [hb'] at this
              exact hnr this
        have hlf : endsWithL ['\n'] l = true := by
          rw [hb]
          unfold endsWithL
          simp [List.reverse_append]
        unfold detectLineEnding
        rw [hcrlf]
        simp [hlf]
      · subst he
        have hcrlf : endsWithL ['\r', '\n'] l = true := by
          rw [hb]
          unfold endsWithL
          simp [List.reverse_append]
        unfold detectLineEnding
        simp [hcrlf]

/-- C7: the claim quantifies over every table file containing a
mode: import line and no queryGroup line.  For a file whose final
mode: line is not newline-terminated, readlines keeps the unterminated
line, the new queryGroup line is inserted after it, and writelines
concatenates the two, fusing the inserted text onto the mode: line: the
output is a single line and no inserted queryGroup line exists on its
own. -/
theorem C7_counterexample :
    updateTableDefinitionText ("mode: import".data) (some ("Sales/EU".data)) =
      ("mode: importqueryGroup: 'Sales/EU'\n".data) ∧
    pythonReadlines ("mode: importqueryGroup: 'Sales/EU'\n".data) =
      [("mode: importqueryGroup: 'Sales/EU'\n".data)] := by
  refine ⟨by decide, by decide⟩

/-- C7 (amended): for every table file whose lines all end with the
file's uniform line ending (newline or carriage-return newline), that
contains a mode: line and no queryGroup line, the call inserts exactly
one new line, consisting of the mode: line's indentation followed by the
quoted group path, immediately after the first mode: line, terminated
with the file's line ending; all other lines are unchanged. -/
theorem C7_insert_query_group (lines : List (List Char)) (eol : List Char)
    (mi : Nat) (heol : eol = ['\n'] ∨ eol = ['\r', '\n'])
    (hterm : ∀ l ∈ lines, ∃ body, l = body ++ eol ∧ '\n' ∉ body ∧ '\r' ∉ body)
    (hmode : lines.findIdx? isModeLine = some mi)
    (hnoq : lines.findIdx? isQueryGroupLine = none) :
    updateTableDefinition lines (some ("Sales/EU".data)) =
      some (lines.take (mi + 1) ++
        ((lines.getD mi []).takeWhile pySpace ++
          ("queryGroup: '".data ++ ("Sales/EU".data ++ ('\'' :: eol)))) ::
        lines.drop (mi + 1)) := by
  have hne : lines ≠ [] := by
    intro hc
    rw [hc] at hmode
    simp at hmode
  have hnew : updNewLine lines ("Sales/EU".data) =
      (lines.getD mi []).takeWhile pySpace ++
        ("queryGroup: '".data ++ ("Sales/EU".data ++ ('\'' :: eol))) := by
    unfold updNewLine
    rw [hmode, hnoq, detectLineEnding_uniform lines eol heol hterm hne]
    simp
  unfold updateTableDefinition
  rw [if_neg (by simp [hne]), hmode, hnoq]
  show some (lines.take (mi + 1) ++
      updNewLine lines ("Sales/EU".data) :: lines.drop (mi + 1)) = _
  rw [hnew]

/-- Witness for C7_insert_query_group at a concrete three-line file. -/
theorem C7_witness :
    updateTableDefinition
        [("table t\n".data), ("\tmode: import\n".data), ("\tcolumn c\n".data)]
        (some ("Sales/EU".data)) =
      some (([("table t\n".data), ("\tmode: import\n".data),
          ("\tcolumn c\n".data)]).take (1 + 1) ++
        ((([("table t\n".data), ("\tmode: import\n".data),
            ("\tcolumn c\n".data)]).getD 1 []).takeWhile pySpace ++
          ("queryGroup: '".data ++ ("Sales/EU".data ++ ('\'' :: ['\n'])))) ::
        ([("table t\n".data), ("\tmode: import\n".data),
          ("\tcolumn c\n".data)]).drop (1 + 1)) :=
  C7_insert_query_group
    [("table t\n".data), ("\tmode: import\n".data), ("\tcolumn c\n".data)]
    ['\n'] 1 (Or.inl rfl)
    (by
      intro l hl
      simp only [List.mem_cons, List.not_mem_nil, or_false] at hl
      rcases hl with rfl | rfl | rfl
      · exact ⟨"table t".data, by decide⟩
      · exact ⟨"\tmode: import".data, by decide⟩
      · exact ⟨"\tcolumn c".data, by decide⟩)
    (by decide) (by decide)

/-- Witness for C8_parse_query_groups_min at a model text with a
duplicated group name: the kept value is the minimum of 5 and 2. -/
theorem C8_witness :
    (List.lookup ("G".data) (parseQueryGroups
        ("queryGroup 'G'\n\tannotation PBI_QueryGroupOrder = 5\nqueryGroup 'G'\n\tannotation PBI_QueryGroupOrder = 2\n".data)) =
      minNat? (groupOccOrders
        ("queryGroup 'G'\n\tannotation PBI_QueryGroupOrder = 5\nqueryGroup 'G'\n\tannotation PBI_QueryGroupOrder = 2\n".data)
        ("G".data))) ∧
    List.lookup ("G".data) (parseQueryGroups
        ("queryGroup 'G'\n\tannotation PBI_QueryGroupOrder = 5\nqueryGroup 'G'\n\tannotation PBI_QueryGroupOrder = 2\n".data)) =
      some 2 :=
  ⟨(C8_parse_query_groups_min
      ("queryGroup 'G'\n\tannotation PBI_QueryGroupOrder = 5\nqueryGroup 'G'\n\tannotation PBI_QueryGroupOrder = 2\n".data)
      ("G".data)).1,
   by decide⟩

/-
  In-memory tree model for the Power Query tab (src/Tabs/tab_power_query.py).
  Tree items carry the widget data roles the reconciler reads: the display
  text, the KEY_ROLE (a folder's group path, None for the synthetic Other
  Queries folder), and for tables the UserRole table name.  tables_data is
  the name-keyed dictionary of table records; only the fields the embedded
  operations read or write (table_type, query_group) are modelled.
-/

/-- A tree item of the Power Query table tree. -/
inductive PQItem where
  | folder (text : List Char) (key : Option (List Char)) (children : List PQItem)
  | table (userRole : Option (List Char)) (key : Option (List Char))
      (text : List Char) (children : List PQItem)
  | column (text : List Char)
deriving Inhabited

/-- The KEY_ROLE datum of an item. -/
def itemKey : PQItem → Option (List Char)
  | .folder _ key _ => key
  | .table _ key _ _ => key
  | .column _ => none

/-- Children of an item (a column has none). -/
def itemChildren : PQItem → List PQItem
  | .folder _ _ cs => cs
  | .table _ _ _ cs => cs
  | .column _ => []

/-- Replace an item's children. -/
def setChildren : PQItem → List PQItem → PQItem
  | .folder t k _, cs => .folder t k cs
  | .table u k t _, cs => .table u k t cs
  | .column t, _ => .column t

/-- Display text of an item. -/
def itemText : PQItem → List Char
  | .folder t _ _ => t
  | .table _ _ t _ => t
  | .column t => t

/-- Item type tests mirroring the TYPE_ROLE checks. -/
def isTableItem : PQItem → Bool
  | .table _ _ _ _ => true
  | _ => false

def isFolderItem : PQItem → Bool
  | .folder _ _ _ => true
  | _ => false

/-- Lowercasing, Python str.lower on the ASCII range. -/
def toLowerL (s : List Char) : List Char := s.map Char.toLower

/-- A table record of tables_data with the fields the reconciler reads
and writes (the remaining fields are never touched by the embedded
operations). -/
structure TableInfo where
  tableType : Option (List Char)
  queryGroup : Option (List Char)
deriving DecidableEq, Repr

/-- tables_data: the name-keyed dictionary of table records. -/
abbrev TablesData := List (List Char × TableInfo)

/-- In-place update of one record's query_group, as the traversal does
with info["query_group"] = group_path. -/
def tdSetQueryGroup : TablesData → List Char → Option (List Char) → TablesData
  | [], _, _ => []
  | (n, info) :: rest, name, g =>
      if n = name then (n, { info with queryGroup := g }) :: rest
      else (n, info) :: tdSetQueryGroup rest name g

/-- Dictionary assignment for the table_groups mapping. -/
def tgUpsert : List (List Char × Option (List Char)) → List Char →
    Option (List Char) → List (List Char × Option (List Char))
  | [], k, v => [(k, v)]
  | (k', v') :: rest, k, v =>
      if k' = k then (k', v) :: rest else (k', v') :: tgUpsert rest k v

/-- Accumulated result of _collect_tree_layout: folder paths in
traversal order, the flattened table order, the table-to-group mapping,
and the updated tables_data. -/
structure LayoutAcc where
  folderPaths : List (List Char)
  tableOrder : List (List Char)
  tableGroups : List (List Char × Option (List Char))
  td : TablesData
deriving DecidableEq, Repr

/-- The working path extended by a named folder, unchanged for a folder
whose stripped name is empty. -/
def folderWorking (working : List (List Char)) (text : List Char) :
    List (List Char) :=
  if (stripL text).isEmpty then working else working ++ [stripL text]

/-- Appending the joined path of a non-empty working path to
folder_paths. -/
def folderAcc (acc : LayoutAcc) (working' : List (List Char)) : LayoutAcc :=
  if working'.isEmpty then acc
  else { acc with folderPaths := acc.folderPaths ++ [joinSlash working'] }

/-- The name under which a table is recorded during the layout
traversal (src/Tabs/tab_power_query.py, lines 1043-1058 and 1066-1080):
the UserRole datum, falling back to the stripped display text when that
datum is absent or empty. -/
def tblName (userRole : Option (List Char)) (text : List Char) : List Char :=
  match userRole with
  | some n => if n.isEmpty then stripL text else n
  | none => stripL text

/-- The group path assigned to a table: the joined working path, None at
top level or directly under Other Queries. -/
def tblGroup (working : List (List Char)) : Option (List Char) :=
  if working.isEmpty then none else some (joinSlash working)

/-- The record's table_type, lowercased, with the empty-string defaults
of the source. -/
def tblTypeOf (td : TablesData) (name : List Char) : List Char :=
  match List.lookup name td with
  | some info => toLowerL (info.tableType.getD [])
  | none => []

/-- Handling of one table item during the layout traversal: the table
name is recorded in table_groups with the joined working path, the
record's query_group is updated in tables_data, and the name joins the
flattened table order unless the record's table_type lowercases to
calculated. -/
def handleTable (acc : LayoutAcc) (userRole : Option (List Char))
    (text : List Char) (working : List (List Char)) : LayoutAcc :=
  { folderPaths := acc.folderPaths,
    tableOrder :=
      if tblTypeOf acc.td (tblName userRole text) = "calculated".data
      then acc.tableOrder
      else acc.tableOrder ++ [tblName userRole text],
    tableGroups :=
      tgUpsert acc.tableGroups (tblName userRole text) (tblGroup working),
    td :=
      match List.lookup (tblName userRole text) acc.td with
      | some _ => tdSetQueryGroup acc.td (tblName userRole text) (tblGroup working)
      | none => acc.td }

mutual

/-- Embedding of the traverse_folder closure of _collect_tree_layout
(src/Tabs/tab_power_query.py, lines 1015-1058): a folder with KEY_ROLE
None resets the working path; otherwise its stripped name extends the
path, and the non-empty joined path is appended to folder_paths; the
widget-data writes of the source (KEY_ROLE refresh, column re-sorting)
have no effect on the returned layout and are omitted. -/
def layoutItem (acc : LayoutAcc) (working : List (List Char)) :
    PQItem → LayoutAcc
  | .folder text key children =>
      if key.isNone then layoutChildren acc [] children
      else
        layoutChildren (folderAcc acc (folderWorking working text))
          (folderWorking working text) children
  | .table userRole _ text _ => handleTable acc userRole text working
  | .column _ => acc

/-- Traversal of a list of sibling items. -/
def layoutChildren (acc : LayoutAcc) (working : List (List Char)) :
    List PQItem → LayoutAcc
  | [] => acc
  | c :: cs => layoutChildren (layoutItem acc working c) working cs

end

/-- Embedding of _collect_tree_layout on the top-level items
(src/Tabs/tab_power_query.py, lines 1060-1081): top-level folders are
traversed from the empty path and top-level tables are handled with no
group. -/
def collectTreeLayout (tree : List PQItem) (td : TablesData) : LayoutAcc :=
  layoutChildren
    { folderPaths := [], tableOrder := [], tableGroups := [], td := td }
    [] tree

theorem lookup_tdSetQueryGroup_tableType (td : TablesData) (m : List Char)
    (g : Option (List Char)) (n : List Char) :
    (List.lookup n (tdSetQueryGroup td m g)).map TableInfo.tableType =
      (List.lookup n td).map TableInfo.tableType := by
  induction td with
  | nil => rfl
  | cons kv rest ih =>
      rcases kv with ⟨n0, info0⟩
      by_cases h0 : n0 = m
      · subst h0
        by_cases hn : n = n0
        · subst hn
          simp [tdSetQueryGroup, List.lookup]
        · have hne : (n == n0) = false := by simp [hn]
          simp [tdSetQueryGroup, List.lookup, hne]
      · by_cases hn : n = n0
        · subst hn
          simp [tdSetQueryGroup, if_neg h0, List.lookup]
        · have hne : (n == n0) = false := by simp [hn]
          simp only [tdSetQueryGroup, if_neg h0, List.lookup, hne]
          exact ih

/-- Invariant carried through the layout traversal for one table name
whose record is calculated: the name never enters the flattened order,
and its record's table_type is never altered. -/
def C9Inv (td₀ : TablesData) (name : List Char) (acc : LayoutAcc) : Prop :=
  name ∉ acc.tableOrder ∧
  (List.lookup name acc.td).map TableInfo.tableType =
    (List.lookup name td₀).map TableInfo.tableType

theorem handleTable_pres {td₀ : TablesData} {name : List Char}
    {info : TableInfo} (hlk : List.lookup name td₀ = some info)
    (hcalc : toLowerL (info.tableType.getD []) = "calculated".data)
    (acc : LayoutAcc) (u : Option (List Char)) (text : List Char)
    (w : List (List Char)) (hinv : C9Inv td₀ name acc) :
    C9Inv td₀ name (handleTable acc u text w) := by
  obtain ⟨hno, hty⟩ := hinv
  constructor
  · show name ∉ (if tblTypeOf acc.td (tblName u text) = "calculated".data
        then acc.tableOrder else acc.tableOrder ++ [tblName u text])
    by_cases heq : tblName u text = name
    · have hsome : ∃ info', List.lookup name acc.td = some info' ∧
          info'.tableType = info.tableType := by
        rw [hlk] at hty
        rcases hl : List.lookup name acc.td with _ | info'
        · rw [hl] at hty; simp at hty
        · rw [hl] at hty
          simp at hty
          exact ⟨info', rfl, hty⟩
      rcases hsome with ⟨info', hl', hty'⟩
      have hcond : tblTypeOf acc.td (tblName u text) = "calculated".data := by
        unfold tblTypeOf
        rw [heq, hl']
        show toLowerL (info'.tableType.getD []) = _
        rw [hty']
        exact hcalc
      rw [if_pos hcond]
      exact hno
    · split_ifs with hcond
      · exact hno
      · intro hmem
        rcases List.mem_append.mp hmem with hmem | hmem
        · exact hno hmem
        · simp at hmem
          exact heq hmem.symm
  · show (List.lookup name
        (match List.lookup (tblName u text) acc.td with
         | some _ => tdSetQueryGroup acc.td (tblName u text) (tblGroup w)
         | none => acc.td)).map TableInfo.tableType = _
    rcases hl : List.lookup (tblName u text) acc.td with _ | i0
    · exact hty
    · rw [lookup_tdSetQueryGroup_tableType]
      exact hty

mutual

theorem layoutItem_pres {td₀ : TablesData} {name : List Char}
    {info : TableInfo} (hlk : List.lookup name td₀ = some info)
    (hcalc : toLowerL (info.tableType.getD []) = "calculated".data) :
    ∀ (i : PQItem) (acc : LayoutAcc) (w : List (List Char)),
      C9Inv td₀ name acc → C9Inv td₀ name (layoutItem acc w i)
  | .folder text key children, acc, w, hinv => by
      simp only [layoutItem]
      by_cases hk : key.isNone
      · rw [if_pos hk]
        exact layoutChildren_pres hlk hcalc children acc [] hinv
      · rw [if_neg hk]
        refine layoutChildren_pres hlk hcalc children _ _ ?_
        unfold folderAcc
        split_ifs
        · exact hinv
        · exact ⟨hinv.1, hinv.2⟩
  | .table u k text cs, acc, w, hinv => by
      simp only [layoutItem]
      exact handleTable_pres hlk hcalc acc u text w hinv
  | .column t, acc, w, hinv => by
      simp only [layoutItem]
      exact hinv

theorem layoutChildren_pres {td₀ : TablesData} {name : List Char}
    {info : TableInfo} (hlk : List.lookup name td₀ = some info)
    (hcalc : toLowerL (info.tableType.getD []) = "calculated".data) :
    ∀ (cs : List PQItem) (acc : LayoutAcc) (w : List (List Char)),
      C9Inv td₀ name acc → C9Inv td₀ name (layoutChildren acc w cs)
  | [], acc, w, hinv => by
      simp only [layoutChildren]
      exact hinv
  | c :: cs, acc, w, hinv => by
      simp only [layoutChildren]
      exact layoutChildren_pres hlk hcalc cs _ w
        (layoutItem_pres hlk hcalc c acc w hinv)

end

/-- C9: for every tree and tables_data, the flattened table order
computed by _collect_tree_layout contains no table whose recorded
table_type is calculated (case-insensitively): only non-calculated
tables appear in the persisted global query order. -/
theorem C9_no_calculated_in_order (tree : List PQItem) (td : TablesData)
    (name : List Char) (info : TableInfo)
    (hlookup : List.lookup name td = some info)
    (hcalc : toLowerL (info.tableType.getD []) = "calculated".data) :
    name ∉ (collectTreeLayout tree td).tableOrder :=
  (layoutChildren_pres hlookup hcalc tree
    { folderPaths := [], tableOrder := [], tableGroups := [], td := td } []
    ⟨by simp, rfl⟩).1

/-- Witness for C9_no_calculated_in_order: a folder holding a calculated
table and an import-mode table; the calculated one stays out of the
order while the other is collected. -/
theorem C9_witness :
    ("Calc".data) ∉ (collectTreeLayout
      [PQItem.folder ("G".data) (some ("G".data))
        [PQItem.table (some ("Calc".data)) none ("Calc".data) [],
         PQItem.table (some ("T".data)) none ("T".data) []]]
      [("Calc".data, ⟨some ("calculated".data), none⟩),
       ("T".data, ⟨some ("m".data), none⟩)]).tableOrder ∧
    (collectTreeLayout
      [PQItem.folder ("G".data) (some ("G".data))
        [PQItem.table (some ("Calc".data)) none ("Calc".data) [],
         PQItem.table (some ("T".data)) none ("T".data) []]]
      [("Calc".data, ⟨some ("calculated".data), none⟩),
       ("T".data, ⟨some ("m".data), none⟩)]).tableOrder = [("T".data)] :=
  ⟨C9_no_calculated_in_order _ _ ("Calc".data)
      ⟨some ("calculated".data), none⟩ (by decide) (by decide),
   by decide⟩

/-
  Embedding of delete_folder (src/Tabs/tab_power_query.py, lines
  919-940; the identical method appears in src/Tabs/tab_tables_elements.py,
  lines 2326-2347) for a top-level folder: ensure the synthetic Other
  Queries folder exists, take every direct child of the deleted folder
  in order re-parenting only the tables into Other Queries, sort the
  tables of Other Queries by lowercased name, remove the folder from the
  tree, pop its key from query_groups, and move Other Queries back to
  the last position.  The trailing on_tree_structure_changed call only
  recomputes the layout (collectTreeLayout above) and is not part of
  this structural edit.
-/

/-- Display name of the synthetic catch-all folder. -/
def otherQueriesName : List Char := "Other Queries".data

/-- Lexicographic comparison used to model Python string comparison for
the sort key. -/
def lexLt : List Char → List Char → Bool
  | [], [] => false
  | [], _ :: _ => true
  | _ :: _, [] => false
  | a :: as, b :: bs => if a < b then true else if b < a then false else lexLt as bs

/-- Stable insertion of a table into a sorted run, placing it after all
items whose lowercased text does not exceed its own. -/
def insertByKey (x : PQItem) : List PQItem → List PQItem
  | [] => [x]
  | y :: ys =>
      if lexLt (toLowerL (itemText y)) (toLowerL (itemText x)) then
        y :: insertByKey x ys
      else x :: y :: ys

/-- Stable sort by lowercased display text, the effect of
sort_tables_in_folder's list.sort with a lower() key. -/
def insertionSortTables : List PQItem → List PQItem
  | [] => []
  | x :: xs => insertByKey x (insertionSortTables xs)

/-- The Power Query tab state touched by delete_folder. -/
structure PQState where
  tree : List PQItem
  queryGroups : List (List Char × Nat)
  td : TablesData

/-- ensure_other_queries_folder: reuse the first keyless (Other Queries)
item if one exists, else append a fresh empty Other Queries folder at the
end of the top level. -/
def ensureOtherQueries (tree : List PQItem) : List PQItem :=
  match tree.findIdx? (fun it => (itemKey it).isNone) with
  | some _ => tree
  | none => tree ++ [PQItem.folder otherQueriesName none []]

/-- move_other_queries_last: take the keyless folder out of the top level
and re-append it at the end, unless it is already last. -/
def moveOtherQueriesLast (tree : List PQItem) : List PQItem :=
  match tree.findIdx? (fun it => (itemKey it).isNone) with
  | some j =>
      if j = tree.length - 1 then tree
      else (tree.eraseIdx j) ++ [tree.getD j default]
  | none => tree

/-- The body of delete_folder once the target is known to be a keyed
folder: ensure Other Queries exists, move the deleted folder's direct
table children into it, re-sort its tables, erase the folder, drop its
key from query_groups, and move Other Queries back to last position. -/
def deleteTopFolderGo (st : PQState) (i : Nat) (k : List Char)
    (children : List PQItem) : PQState :=
  let tree1 := ensureOtherQueries st.tree
  let otherIdx := (tree1.findIdx? (fun it => (itemKey it).isNone)).getD 0
  let other := tree1.getD otherIdx default
  let newOtherChildren :=
    (itemChildren other ++ children.filter isTableItem).filter
        (fun c => !isTableItem c) ++
      insertionSortTables
        ((itemChildren other ++ children.filter isTableItem).filter
          isTableItem)
  let tree2 := tree1.set otherIdx (setChildren other newOtherChildren)
  let tree3 := tree2.eraseIdx i
  { tree := moveOtherQueriesLast tree3,
    queryGroups := st.queryGroups.filter (fun kv => kv.1 ≠ k),
    td := st.td }

/-- delete_folder on the top-level folder at index i; any other target
(out of range, not a folder, or the keyless Other Queries folder) leaves
the state unchanged, as the source's guards do. -/
def deleteTopFolder (st : PQState) (i : Nat) : PQState :=
  match st.tree.get? i with
  | some (PQItem.folder _ (some k) children) => deleteTopFolderGo st i k children
  | _ => st

mutual

/-- All table items of one item: a table is itself, a folder contributes
its subtree's tables. -/
def tablesOfItem : PQItem → List PQItem
  | .folder _ _ cs => tablesOfForest cs
  | .table u k t cs => [.table u k t cs]
  | .column _ => []

/-- All table items of a forest, in traversal order. -/
def tablesOfForest : List PQItem → List PQItem
  | [] => []
  | c :: cs => tablesOfItem c ++ tablesOfForest cs

end

theorem tablesOfForest_append (l1 l2 : List PQItem) :
    tablesOfForest (l1 ++ l2) = tablesOfForest l1 ++ tablesOfForest l2 := by
  induction l1 with
  | nil => simp [tablesOfForest]
  | cons c cs ih =>
      show tablesOfItem c ++ tablesOfForest (cs ++ l2) = _
      rw [ih]
      show _ = tablesOfItem c ++ tablesOfForest cs ++ tablesOfForest l2
      rw [List.append_assoc]

theorem tablesOfForest_perm {l l' : List PQItem} (h : l.Perm l') :
    (tablesOfForest l).Perm (tablesOfForest l') := by
  induction h with
  | nil => exact List.Perm.refl _
  | cons x _ ih =>
      simp only [tablesOfForest]
      exact List.Perm.append_left _ ih
  | swap x y l =>
      simp only [tablesOfForest, ← List.append_assoc]
      exact List.Perm.append_right _ (List.perm_append_comm)
  | trans _ _ ih1 ih2 => exact ih1.trans ih2

theorem tablesOfForest_of_all_tables {l : List PQItem}
    (h : ∀ x ∈ l, isTableItem x = true) : tablesOfForest l = l := by
  induction l with
  | nil => rfl
  | cons c cs ih =>
      have hc := h c (by simp)
      cases c with
      | table u k t cs' =>
          simp only [tablesOfForest, tablesOfItem]
          rw [ih (fun x hx => h x (by simp [hx]))]
          rfl
      | folder t k cs' => simp [isTableItem] at hc
      | column t => simp [isTableItem] at hc

theorem insertByKey_perm (x : PQItem) (l : List PQItem) :
    (insertByKey x l).Perm (x :: l) := by
  induction l with
  | nil => exact List.Perm.refl _
  | cons y ys ih =>
      unfold insertByKey
      split_ifs
      · exact (ih.cons y).trans (List.Perm.swap x y ys)
      · exact List.Perm.refl _

theorem insertionSortTables_perm (l : List PQItem) :
    (insertionSortTables l).Perm l := by
  induction l with
  | nil => exact List.Perm.refl _
  | cons x xs ih =>
      unfold insertionSortTables
      exact (insertByKey_perm x (insertionSortTables xs)).trans (ih.cons x)

theorem perm_append_right_cancel {α : Type} :
    ∀ (t l₁ l₂ : List α), (l₁ ++ t).Perm (l₂ ++ t) → l₁.Perm l₂ := by
  intro t
  induction t with
  | nil => intro l₁ l₂ h; simpa using h
  | cons x t' ih =>
      intro l₁ l₂ h
      have h1 : (x :: (l₁ ++ t')).Perm (x :: (l₂ ++ t')) :=
        (List.perm_middle.symm.trans h).trans List.perm_middle
      exact ih l₁ l₂ h1.cons_inv

theorem findIdx?_some_spec {p : PQItem → Bool} :
    ∀ {l : List PQItem} {j : Nat}, l.findIdx? p = some j →
      ∃ x, l.get? j = some x ∧ p x = true := by
  intro l
  induction l with
  | nil => intro j h; simp at h
  | cons c cs ih =>
      intro j h
      rw [List.findIdx?_cons] at h
      by_cases hc : p c
      · rw [if_pos hc] at h
        simp at h
        exact ⟨c, by simp [← h], hc⟩
      · rw [if_neg hc] at h
        simp at h
        rcases h with ⟨j', hj', rfl⟩
        rcases ih hj' with ⟨x, hx, hpx⟩
        exact ⟨x, by simpa using hx, hpx⟩

theorem findIdx?_append_singleton_none {p : PQItem → Bool} {l : List PQItem}
    {x : PQItem} (h : l.findIdx? p = none) (hx : p x = true) :
    (l ++ [x]).findIdx? p = some l.length := by
  rw [List.findIdx?_append, h]
  simp [List.findIdx?_cons, hx]

theorem getD_of_get? {l : List PQItem} {n : Nat} {x : PQItem}
    (h : l.get? n = some x) : l.getD n default = x := by
  rw [List.getD_eq_get?, h]
  rfl

theorem perm_rotate3 (u v w : List PQItem) :
    (u ++ (v ++ w)).Perm (w ++ (v ++ u)) := by
  have h1 : (u ++ (v ++ w)).Perm (v ++ (w ++ u)) := by
    have := @List.perm_append_comm _ u (v ++ w)
    rw [List.append_assoc] at this
    exact this
  have h2 : (v ++ (w ++ u)).Perm (w ++ (u ++ v)) := by
    have := @List.perm_append_comm _ v (w ++ u)
    rw [List.append_assoc] at this
    exact this
  have h3 : (w ++ (u ++ v)).Perm (w ++ (v ++ u)) :=
    List.Perm.append_left w List.perm_append_comm
  exact (h1.trans h2).trans h3

theorem list_decomp_of_get? {l : List PQItem} {n : Nat} {x : PQItem}
    (h : l.get? n = some x) :
    l = l.take n ++ x :: l.drop (n + 1) := by
  obtain ⟨hlt, hget⟩ := List.get?_eq_some.mp h
  conv_lhs => rw [← List.take_append_drop n l]
  rw [List.drop_eq_getElem_cons hlt]
  have : l[n] = x := hget
  rw [this]

theorem tablesOfForest_cons_decomp (a : List PQItem) (x : PQItem)
    (b : List PQItem) :
    tablesOfForest (a ++ x :: b) =
      tablesOfForest a ++ (tablesOfItem x ++ tablesOfForest b) := by
  rw [tablesOfForest_append]
  rfl

theorem tablesOfForest_set_perm {l : List PQItem} {n : Nat} {x : PQItem}
    (y : PQItem) (h : l.get? n = some x) :
    (tablesOfForest (l.set n y) ++ tablesOfItem x).Perm
      (tablesOfForest l ++ tablesOfItem y) := by
  obtain ⟨hlt, _⟩ := List.get?_eq_some.mp h
  rw [List.set_eq_take_cons_drop y hlt, tablesOfForest_cons_decomp]
  conv_rhs => rw [list_decomp_of_get? h, tablesOfForest_cons_decomp]
  simp only [List.append_assoc]
  exact List.Perm.append_left _ (perm_rotate3 _ _ _)

theorem tablesOfForest_erase_perm {l : List PQItem} {n : Nat} {x : PQItem}
    (h : l.get? n = some x) :
    (tablesOfForest (l.eraseIdx n) ++ tablesOfItem x).Perm (tablesOfForest l) := by
  rw [List.eraseIdx_eq_take_drop_succ, tablesOfForest_append]
  conv_rhs => rw [list_decomp_of_get? h, tablesOfForest_cons_decomp]
  rw [List.append_assoc]
  exact List.Perm.append_left _ List.perm_append_comm

theorem pipeline_perm (tree1 : List PQItem) (i otherIdx : Nat)
    (f other other' : PQItem) (oc D : List PQItem)
    (hgi : tree1.get? i = some f)
    (hne : otherIdx ≠ i)
    (hgo : tree1.get? otherIdx = some other)
    (hIother : tablesOfItem other = tablesOfForest oc)
    (hIother' : (tablesOfItem other').Perm (tablesOfForest oc ++ D))
    (tree4 : List PQItem)
    (h4 : (tablesOfForest tree4).Perm
        (tablesOfForest ((tree1.set otherIdx other').eraseIdx i))) :
    (tablesOfForest tree4).Perm
      (tablesOfForest (tree1.eraseIdx i) ++ D) := by
  have hgi2 : (tree1.set otherIdx other').get? i = some f := by
    rw [List.get?_set_ne _ _ hne]
    exact hgi
  have e1 := tablesOfForest_erase_perm hgi2
  have e2 := tablesOfForest_set_perm other' hgo
  have e3 := tablesOfForest_erase_perm hgi
  refine perm_append_right_cancel (tablesOfItem f ++ tablesOfItem other) _ _ ?_
  have lhs1 : (tablesOfForest tree4 ++ (tablesOfItem f ++ tablesOfItem other)).Perm
      (tablesOfForest tree1 ++ (tablesOfForest oc ++ D)) := by
    calc tablesOfForest tree4 ++ (tablesOfItem f ++ tablesOfItem other)
        = tablesOfForest tree4 ++ tablesOfItem f ++ tablesOfItem other := by
          rw [List.append_assoc]
      _ |>.Perm (tablesOfForest ((tree1.set otherIdx other').eraseIdx i) ++
            tablesOfItem f ++ tablesOfItem other) := by
          exact List.Perm.append_right _ (List.Perm.append_right _ h4)
      _ |>.Perm (tablesOfForest (tree1.set otherIdx other') ++ tablesOfItem other) :=
          List.Perm.append_right _ e1
      _ |>.Perm (tablesOfForest tree1 ++ tablesOfItem other') := e2
      _ |>.Perm (tablesOfForest tree1 ++ (tablesOfForest oc ++ D)) :=
          List.Perm.append_left _ hIother'
  have rhs1 : ((tablesOfForest (tree1.eraseIdx i) ++ D) ++
      (tablesOfItem f ++ tablesOfItem other)).Perm
      (tablesOfForest tree1 ++ (tablesOfForest oc ++ D)) := by
    have step1 : ((tablesOfForest (tree1.eraseIdx i) ++ D) ++
        (tablesOfItem f ++ tablesOfItem other)).Perm
        ((tablesOfForest (tree1.eraseIdx i) ++ tablesOfItem f) ++
          (tablesOfItem other ++ D)) := by
      simp only [List.append_assoc]
      refine List.Perm.append_left _ ?_
      refine (@List.perm_append_comm _ D
        (tablesOfItem f ++ tablesOfItem other)).trans ?_
      rw [List.append_assoc]
    refine step1.trans ?_
    refine (List.Perm.append_right _ e3).trans ?_
    rw [hIother]
  exact lhs1.trans rhs1.symm

theorem mem_move_last {l : List PQItem} {j : Nat} {x o : PQItem}
    (hx : l.get? j = some x) (hmem : o ∈ l) :
    o ∈ (l.eraseIdx j) ++ [l.getD j default] := by
  rw [getD_of_get? hx, List.eraseIdx_eq_take_drop_succ]
  conv at hmem => rw [list_decomp_of_get? hx]
  simp only [List.mem_append, List.mem_cons, List.mem_singleton] at hmem ⊢
  tauto

theorem mem_erase_of_ne {l : List PQItem} {i : Nat} {f o : PQItem}
    (hf : l.get? i = some f) (hmem : o ∈ l) (hne : o ≠ f) :
    o ∈ l.eraseIdx i := by
  rw [List.eraseIdx_eq_take_drop_succ]
  conv at hmem => rw [list_decomp_of_get? hf]
  simp only [List.mem_append, List.mem_cons] at hmem ⊢
  rcases hmem with hmem | hmem | hmem
  · exact Or.inl hmem
  · exact absurd hmem hne
  · exact Or.inr hmem

theorem mem_set_self {l : List PQItem} {n : Nat} (y : PQItem)
    (h : n < l.length) : y ∈ l.set n y := by
  have : (l.set n y).get? n = some y := by
    rw [List.get?_eq_getElem?]
    rw [List.getElem?_set_self']
    rw [← List.get?_eq_getElem?]
    rcases hg : l.get? n with _ | z
    · rw [List.get?_eq_none] at hg
      omega
    · rfl
  exact List.get?_mem this

theorem moveOtherQueriesLast_perm (l : List PQItem) :
    (tablesOfForest (moveOtherQueriesLast l)).Perm (tablesOfForest l) := by
  unfold moveOtherQueriesLast
  rcases hf : l.findIdx? (fun it => (itemKey it).isNone) with _ | j
  · exact List.Perm.refl _
  · show (tablesOfForest (if j = l.length - 1 then l
        else l.eraseIdx j ++ [l.getD j default])).Perm (tablesOfForest l)
    split_ifs
    · exact List.Perm.refl _
    · rcases findIdx?_some_spec hf with ⟨x, hx, _⟩
      rw [getD_of_get? hx, tablesOfForest_append]
      have hsing : tablesOfForest [x] = tablesOfItem x := by
        show tablesOfItem x ++ ([] : List PQItem) = tablesOfItem x
        exact List.append_nil _
      rw [hsing]
      exact tablesOfForest_erase_perm hx

theorem newChildren_perm (oc children : List PQItem) :
    (tablesOfForest
        ((oc ++ children.filter isTableItem).filter (fun c => !isTableItem c) ++
          insertionSortTables
            ((oc ++ children.filter isTableItem).filter isTableItem))).Perm
      (tablesOfForest oc ++ children.filter isTableItem) := by
  have hD : tablesOfForest (children.filter isTableItem) =
      children.filter isTableItem :=
    tablesOfForest_of_all_tables (fun x hx => (List.mem_filter.mp hx).2)
  have h1 : (tablesOfForest (insertionSortTables
      ((oc ++ children.filter isTableItem).filter isTableItem))).Perm
      (tablesOfForest ((oc ++ children.filter isTableItem).filter isTableItem)) :=
    tablesOfForest_perm (insertionSortTables_perm _)
  have h2 : (((oc ++ children.filter isTableItem).filter
        (fun c => !isTableItem c)) ++
      (oc ++ children.filter isTableItem).filter isTableItem).Perm
      (oc ++ children.filter isTableItem) :=
    List.perm_append_comm.trans (List.filter_append_perm _ _)
  rw [tablesOfForest_append]
  refine (List.Perm.append_left _ h1).trans ?_
  rw [← tablesOfForest_append]
  refine (tablesOfForest_perm h2).trans ?_
  rw [tablesOfForest_append, hD]

/-- C5 (amended): deleting a top-level keyed folder from a top level made
of folders keeps the state's tables_data untouched, drops the folder's
key from query_groups, and leaves as the tables of the tree exactly the
tables of the other top-level subtrees plus the deleted folder's DIRECT
table children (relocated into Other Queries); tables inside nested
subfolders of the deleted folder are not among them. -/
theorem C5_delete_folder (st : PQState) (i : Nat) (text k : List Char)
    (children : List PQItem)
    (h : st.tree.get? i = some (PQItem.folder text (some k) children))
    (honly : ∀ it ∈ st.tree, isFolderItem it = true) :
    (tablesOfForest (deleteTopFolder st i).tree).Perm
        (tablesOfForest (st.tree.eraseIdx i) ++ children.filter isTableItem) ∧
      (deleteTopFolder st i).td = st.td ∧
      (deleteTopFolder st i).queryGroups =
        st.queryGroups.filter (fun kv => kv.1 ≠ k) := by
  have hi : i < st.tree.length := (List.get?_eq_some.mp h).1
  have hstep : deleteTopFolder st i = deleteTopFolderGo st i k children := by
    unfold deleteTopFolder
    rw [h]
  rw [hstep]
  refine ⟨?_, ?_, ?_⟩
  · simp only [deleteTopFolderGo]
    rcases hfind : st.tree.findIdx? (fun it => (itemKey it).isNone) with _ | j0
    · have htree1 : ensureOtherQueries st.tree =
          st.tree ++ [PQItem.folder otherQueriesName none []] := by
        unfold ensureOtherQueries
        rw [hfind]
      rw [htree1]
      have hidx : (st.tree ++ [PQItem.folder otherQueriesName none []]).findIdx?
          (fun it => (itemKey it).isNone) = some st.tree.length :=
        findIdx?_append_singleton_none hfind rfl
      rw [hidx]
      have hgo : (st.tree ++ [PQItem.folder otherQueriesName none []]).get?
          st.tree.length = some (PQItem.folder otherQueriesName none []) :=
        List.get?_concat_length _ _
      rw [Option.getD_some, getD_of_get? hgo]
      have hgi : (st.tree ++ [PQItem.folder otherQueriesName none []]).get? i =
          some (PQItem.folder text (some k) children) := by
        rw [List.get?_append hi]
        exact h
      have hne : st.tree.length ≠ i := by omega
      simp only [itemChildren, setChildren]
      have hrw : tablesOfForest
          ((st.tree ++ [PQItem.folder otherQueriesName none []]).eraseIdx i) =
          tablesOfForest (st.tree.eraseIdx i) := by
        rw [List.eraseIdx_append_of_lt_length hi, tablesOfForest_append]
        have hz : tablesOfForest [PQItem.folder otherQueriesName none []] =
            ([] : List PQItem) := rfl
        rw [hz, List.append_nil]
      rw [← hrw]
      refine pipeline_perm
        (st.tree ++ [PQItem.folder otherQueriesName none []]) i st.tree.length
        _ _ _ [] (children.filter isTableItem) hgi hne hgo rfl
        ?_ _ (moveOtherQueriesLast_perm _)
      exact newChildren_perm [] children
    · have htree1 : ensureOtherQueries st.tree = st.tree := by
        unfold ensureOtherQueries
        rw [hfind]
      rw [htree1, hfind, Option.getD_some]
      rcases findIdx?_some_spec hfind with ⟨other, hgo, hp⟩
      have hfold := honly other (List.get?_mem hgo)
      cases other with
      | table u k' t cs => simp [isFolderItem] at hfold
      | column t => simp [isFolderItem] at hfold
      | folder ot okey oc =>
          cases okey with
          | some kk => simp [itemKey] at hp
          | none =>
              rw [getD_of_get? hgo]
              have hne : j0 ≠ i := by
                intro he
                rw [he, h] at hgo
                simp at hgo
              simp only [itemChildren, setChildren]
              refine pipeline_perm st.tree i j0 _ _ _ oc
                (children.filter isTableItem) h hne hgo rfl
                ?_ _ (moveOtherQueriesLast_perm _)
              exact newChildren_perm oc children
  · simp only [deleteTopFolderGo]
  · simp only [deleteTopFolderGo]

/-- Direct children of the deleted folder in the C5 example: a nested
subfolder holding table T1, and a direct table child T2. -/
def C5exChildren : List PQItem :=
  [PQItem.folder "B".data (some "A/B".data) [PQItem.table none none "T1".data []],
   PQItem.table none none "T2".data []]

/-- C5 example tree: the keyed folder A and an empty Other Queries. -/
def C5exTree : List PQItem :=
  [PQItem.folder "A".data (some "A".data) C5exChildren,
   PQItem.folder otherQueriesName none []]

/-- C5 example state. -/
def C5exState : PQState := ⟨C5exTree, [("A".data, 0)], []⟩

/-- C5 counterexample: folder A contains table T1 inside a nested
subfolder; after delete_folder on A, the tree's tables are just the
direct child T2 — T1 was removed from the tree, not relocated to Other
Queries, contradicting the claim that every contained table (directly or
inside nested subfolders) is relocated and none is removed. -/
theorem C5_counterexample :
    PQItem.table none none "T1".data [] ∈ tablesOfForest C5exState.tree ∧
    tablesOfForest (deleteTopFolder C5exState 0).tree =
      [PQItem.table none none "T2".data []] := by
  constructor
  · show PQItem.table none none "T1".data [] ∈
      tablesOfForest C5exState.tree
    exact List.Mem.head _
  · rfl

/-- C5 witness: the amended theorem applied to the example state. -/
theorem C5_witness :
    (tablesOfForest (deleteTopFolder C5exState 0).tree).Perm
        (tablesOfForest (C5exState.tree.eraseIdx 0) ++
          C5exChildren.filter isTableItem) ∧
      (deleteTopFolder C5exState 0).td = C5exState.td ∧
      (deleteTopFolder C5exState 0).queryGroups =
        C5exState.queryGroups.filter (fun kv => kv.1 ≠ "A".data) :=
  C5_delete_folder C5exState 0 "A".data "A".data C5exChildren rfl (by decide)

/-
  Embedding of the write phase of save_changes
  (src/Tabs/tab_tables_elements.py, lines 1444-1467).  The whole phase
  runs inside a single try block: _update_model_tmdl writes model.tmdl,
  then for each entry of table_groups the table's definition is
  rewritten (unless the record's table_type is calculated) and its
  measures are written; the except handler shows one critical dialog
  with the first raised error.  Writes are modelled through an oracle
  mapping each write operation to None (success) or the raised message.
-/

/-- The three kinds of file writes save_changes performs. -/
inductive WriteKind where
  | modelTmdl
  | tableDef
  | tableMeasures
deriving DecidableEq, Repr

/-- One write operation: its kind and the file it touches. -/
structure WriteOp where
  kind : WriteKind
  path : List Char
deriving DecidableEq, Repr

/-- The file name of a table's .tmdl file in the tables directory. -/
def tablePathOf (name : List Char) : List Char := name ++ ".tmdl".data

/-- The write attempts save_changes makes for one table_groups entry: none
when tables_data has no record for the name or the table file is absent;
otherwise _update_table_definition (skipped for a calculated table)
followed by _write_table_measures, both on the table's file. -/
def tableWriteOps (td : TablesData) (files : List (List Char))
    (name : List Char) : List WriteOp :=
  match List.lookup name td with
  | none => []
  | some info =>
      if tablePathOf name ∈ files then
        (if toLowerL (info.tableType.getD []) ≠ "calculated".data then
          [{ kind := WriteKind.tableDef, path := tablePathOf name }]
        else []) ++
          [{ kind := WriteKind.tableMeasures, path := tablePathOf name }]
      else []

/-- Every write attempt of one save in order: model.tmdl first, then each
table's writes following the table_groups order. -/
def plannedWrites (td : TablesData) (files : List (List Char))
    (groups : List (List Char × Option (List Char))) : List WriteOp :=
  { kind := WriteKind.modelTmdl, path := "model.tmdl".data } ::
    (groups.map (fun ng => tableWriteOps td files ng.1)).flatten

/-- Running writes in order under the oracle: the first raise propagates
out of the loop (there is no per-unit handler), so later writes never
happen.  Returns the operations performed and the raised message. -/
def performWrites (write : WriteOp → Option (List Char)) :
    List WriteOp → List WriteOp × Option (List Char)
  | [] => ([], none)
  | op :: ops =>
      match write op with
      | some msg => ([], some msg)
      | none =>
          let r := performWrites write ops
          (op :: r.1, r.2)

/-- The write phase of save_changes under the oracle. -/
def saveChangesWrites (write : WriteOp → Option (List Char)) (td : TablesData)
    (files : List (List Char))
    (groups : List (List Char × Option (List Char))) :
    List WriteOp × Option (List Char) :=
  performWrites write (plannedWrites td files groups)

/-- C3 (amended): save_changes has a single try/except around the whole
write phase, not one per logical unit: the writes performed are exactly
the planned writes up to (and excluding) the first failing one, every
later planned write — including other tables' files — is skipped, and a
single error message (the first raised one) is reported instead of a
combined warnings list. -/
theorem C3_save_single_failure_aborts (write : WriteOp → Option (List Char))
    (td : TablesData) (files : List (List Char))
    (groups : List (List Char × Option (List Char))) :
    saveChangesWrites write td files groups =
      ((plannedWrites td files groups).takeWhile
          (fun op => (write op).isNone),
        match (plannedWrites td files groups).dropWhile
            (fun op => (write op).isNone) with
        | [] => none
        | op :: _ => write op) := by
  unfold saveChangesWrites
  generalize plannedWrites td files groups = ops
  induction ops with
  | nil => rfl
  | cons op ops ih =>
      cases hw : write op with
      | some msg =>
          simp only [performWrites, hw, List.takeWhile_cons, List.dropWhile_cons,
            Option.isNone_some, Bool.false_eq_true, if_false]
      | none =>
          simp only [performWrites, hw, ih, List.takeWhile_cons,
            List.dropWhile_cons, Option.isNone_none, if_true]

/-- C3 example tables_data: two plain import tables. -/
def C3td : TablesData :=
  [("T1".data, { tableType := none, queryGroup := none }),
   ("T2".data, { tableType := none, queryGroup := none })]

/-- C3 example: both table files exist. -/
def C3files : List (List Char) := ["T1.tmdl".data, "T2.tmdl".data]

/-- C3 example table_groups: both tables at top level. -/
def C3groups : List (List Char × Option (List Char)) :=
  [("T1".data, none), ("T2".data, none)]

/-- C3 example oracle: only T1's measures write raises. -/
def C3write (op : WriteOp) : Option (List Char) :=
  if op = { kind := WriteKind.tableMeasures, path := "T1.tmdl".data } then
    some "write failed".data
  else none

/-- C3 counterexample: with only the write of T1's measures failing, the
save stops right there — T2's writes are planned and would succeed, yet
are never performed — and a single error message is reported, not a
combined list of warnings; this contradicts the per-unit failure policy
of the claim. -/
theorem C3_counterexample :
    saveChangesWrites C3write C3td C3files C3groups =
      ([{ kind := WriteKind.modelTmdl, path := "model.tmdl".data },
        { kind := WriteKind.tableDef, path := "T1.tmdl".data }],
       some "write failed".data) ∧
    { kind := WriteKind.tableDef, path := "T2.tmdl".data } ∈
      plannedWrites C3td C3files C3groups ∧
    C3write { kind := WriteKind.tableDef, path := "T2.tmdl".data } = none := by
  refine ⟨rfl, by decide, rfl⟩

/-
  Embedding of load_tables' metadata handling
  (src/Tabs/tab_tables_elements.py, lines 1393-1419) together with the
  error production of _load_power_query_metadata
  (src/common_functions.py, lines 422-449): a missing model.tmdl or
  tables directory raises before any parsing, so the returned metadata
  keeps its default empty fields with error set to the message.
-/

/-- The PowerQueryMetadata fields load_tables reads. -/
structure PQMetadata where
  error : Option (List Char)
  tables : TablesData
  queryOrder : List (List Char)
  queryGroups : List (List Char × Nat)
deriving Repr

/-- The tab state load_tables replaces: tables_data, query_order,
query_groups and the dirty flag. -/
structure TabState where
  tablesData : TablesData
  queryOrder : List (List Char)
  queryGroups : List (List Char × Nat)
  dirty : Bool
deriving Repr

/-- _load_power_query_metadata when model.tmdl is missing: the
FileNotFoundError is caught and stored, the other fields keep their
empty defaults. -/
def loadMetadataMissingModel (semanticRoot : List Char) : PQMetadata :=
  { error := some ("model.tmdl not found under ".data ++ semanticRoot),
    tables := [], queryOrder := [], queryGroups := [] }

/-- The Metadata Error dialog text of load_tables. -/
def metadataErrorMsg (e : List Char) : List Char :=
  "Could not load Power Query metadata:\n".data ++ e

/-- load_tables on freshly loaded metadata: on metadata.error one warning
dialog is shown and the tab state is reset to empty; otherwise the
metadata fields are installed.  Either way the dirty flag clears.
Returns the new state and the warning messages shown. -/
def loadTables (_st : TabState) (m : PQMetadata) : TabState × List (List Char) :=
  match m.error with
  | some e =>
      ({ tablesData := [], queryOrder := [], queryGroups := [],
         dirty := false },
       [metadataErrorMsg e])
  | none =>
      ({ tablesData := m.tables, queryOrder := m.queryOrder,
         queryGroups := m.queryGroups, dirty := false }, [])

/-- C4 (amended): when the metadata carries a load error, load_tables
reports it exactly once and installs no metadata, but it does NOT leave
the previously loaded state untouched: tables_data, query_order and
query_groups are all reset to empty, whatever the previous state was. -/
theorem C4_load_error_resets (st : TabState) (m : PQMetadata) (e : List Char)
    (h : m.error = some e) :
    loadTables st m =
      ({ tablesData := [], queryOrder := [], queryGroups := [],
         dirty := false },
       [metadataErrorMsg e]) := by
  unfold loadTables
  rw [h]

/-- C4 example previous state: a nonempty, previously loaded model. -/
def C4prev : TabState :=
  { tablesData := [("T1".data, { tableType := some "m".data, queryGroup := none })],
    queryOrder := ["T1".data],
    queryGroups := [("Sales".data, 0)],
    dirty := false }

/-- C4 example metadata: model.tmdl was missing. -/
def C4meta : PQMetadata := loadMetadataMissingModel "Proj.SemanticModel".data

/-- C4 counterexample: with a nonempty previous state and metadata whose
load failed, the resulting tables_data is empty — the previous state is
wiped rather than left unchanged, contradicting the claim. -/
theorem C4_counterexample :
    (loadTables C4prev C4meta).1.tablesData = [] ∧
    C4prev.tablesData ≠ [] ∧
    (loadTables C4prev C4meta).2 =
      [metadataErrorMsg
        ("model.tmdl not found under ".data ++ "Proj.SemanticModel".data)] := by
  refine ⟨rfl, by decide, rfl⟩

/-- C4 witness: the amended theorem at the example inputs. -/
theorem C4_witness :
    loadTables C4prev C4meta =
      ({ tablesData := [], queryOrder := [], queryGroups := [],
         dirty := false },
       [metadataErrorMsg
         ("model.tmdl not found under ".data ++ "Proj.SemanticModel".data)]) :=
  C4_load_error_resets C4prev C4meta
    ("model.tmdl not found under ".data ++ "Proj.SemanticModel".data) rfl

/-
  Embedding of the measures writer (src/Tabs/tab_tables_elements.py):
  _format_measure_name (lines 2902-2912), _render_measure_block
  (2914-2946), _render_measure_section (2948-2957) and the text-splice
  core of _write_table_measures (2959-2997).  A measure is the dict the
  renderer reads; absent/None string entries are the empty list, matching
  the renderer's `or` fallbacks.  The parse information
  _write_table_measures takes from _parse_table_measures (a function the
  repository's files do not define: tab_tables_elements.py line 234 only
  imports it) is kept abstract as the record of the three fields the
  writer reads from it: the detected newline, the measures-section
  character range, and the insertion position.
-/

/-- Python str.splitlines boundary characters. -/
def pyLineBreak (c : Char) : Bool :=
  c = '\n' || c = '\r' || c = '\x0b' || c = '\x0c' ||
  c = '\x1c' || c = '\x1d' || c = '\x1e' || c = '\x85' ||
  c = '\u2028' || c = '\u2029'

def pySplitlinesGo : Nat → List Char → List (List Char)
  | 0, _ => []
  | _, [] => []
  | fuel + 1, cs =>
      let line := cs.takeWhile (fun c => !pyLineBreak c)
      match cs.dropWhile (fun c => !pyLineBreak c) with
      | [] => [line]
      | '\r' :: '\n' :: rest => line :: pySplitlinesGo fuel rest
      | _ :: rest => line :: pySplitlinesGo fuel rest

/-- Python str.splitlines (keepends false). -/
def pySplitlines (cs : List Char) : List (List Char) :=
  pySplitlinesGo (cs.length + 1) cs

/-- The measure dict fields the renderer reads; [] stands for an absent
or None string entry and none for an absent quoted_name / format_string. -/
structure Measure where
  name : List Char
  quotedName : Option Bool
  indent : List Char
  expressionIndent : List Char
  expression : List Char
  displayFolder : List Char
  lineageTag : List Char
  otherMetadata : List (List Char)
  formatString : Option (List Char)
  formatIndent : List Char
deriving Repr

/-- The regex ^[A-Za-z_][A-Za-z0-9_]*$ deciding that a measure name needs
no quoting. -/
def bareNameOk : List Char → Bool
  | [] => false
  | c :: rest =>
      (c.isAlpha || c = '_') && rest.all (fun d => d.isAlphanum || d = '_')

/-- _format_measure_name: strip the name, fall back to Measure when
empty, and single-quote it (doubling inner quotes) when quoted_name is
true or, if quoted_name is absent, when the name is not a bare
identifier. -/
def formatMeasureName (m : Measure) : List Char :=
  let name := stripL m.name
  if name.isEmpty then "Measure".data
  else
    let quoted := match m.quotedName with
                  | some b => b
                  | none => !bareNameOk name
    if quoted then
      '\'' :: ((name.map (fun c => if c = '\'' then ['\'', '\''] else [c])).flatten
        ++ ['\''])
    else name

/-- _render_measure_block: the measure header, the indented expression
lines (a 0 expression when empty), optional displayFolder and lineageTag
lines, the verbatim other_metadata lines, and an optional
formatStringDefinition block, joined by the newline without a trailing
one. -/
def renderMeasureBlock (m : Measure) (newline : List Char) : List Char :=
  let indent := if m.indent.isEmpty then "    ".data else m.indent
  let expressionIndent :=
    if m.expressionIndent.isEmpty then "    ".data else m.expressionIndent
  let exprLines := match pySplitlines m.expression with
                   | [] => ["0".data]
                   | ls => ls
  let lines :=
    (indent ++ "measure ".data ++ formatMeasureName m ++ " =".data) ::
      exprLines.map (fun l => indent ++ expressionIndent ++ l)
  let lines := lines ++
    (if !m.displayFolder.isEmpty then
      [indent ++ "displayFolder: ".data ++ m.displayFolder] else [])
  let lines := lines ++
    (if !m.lineageTag.isEmpty then
      [indent ++ "lineageTag: ".data ++ m.lineageTag] else [])
  let lines := lines ++ m.otherMetadata
  let lines := lines ++
    (match m.formatString with
     | none => []
     | some fs =>
         if (stripL fs).isEmpty then []
         else
           let formatIndent :=
             if m.formatIndent.isEmpty then expressionIndent else m.formatIndent
           (indent ++ "formatStringDefinition =".data) ::
             (pySplitlines fs).map (fun l => indent ++ formatIndent ++ l))
  joinWith newline lines

/-- _render_measure_section: blocks separated by one blank line, the
whole section terminated by a blank line; empty for no measures. -/
def renderMeasureSection (measures : List Measure) (newline : List Char) :
    List Char :=
  match measures with
  | [] => []
  | _ =>
      let blocks := measures.map (fun m => renderMeasureBlock m newline)
      let s := joinWith (newline ++ newline) blocks
      let s := if endsWithL newline s then s else s ++ newline
      s ++ newline

/-- The three parse_info fields _write_table_measures reads from
_parse_table_measures' result. -/
structure MeasureParse where
  newline : List Char
  measuresSection : Option (Nat × Nat)
  measureInsertPos : Option Nat
deriving Repr

/-- The text-splice core of _write_table_measures: replace (or remove)
the recorded measures-section range with the freshly rendered section,
or insert the section at the recorded insertion position; None when the
function returns without writing the file. -/
def writeTableMeasuresText (currentText : List Char) (measures : List Measure)
    (p : MeasureParse) : Option (List Char) :=
  let newline := p.newline
  let newSection := renderMeasureSection measures newline
  match p.measuresSection with
  | some (start, stop) =>
      if !newSection.isEmpty then
        some (currentText.take start ++ newSection ++ currentText.drop stop)
      else
        some (currentText.take start ++ currentText.drop stop)
  | none =>
      if newSection.isEmpty then none
      else
        let insertPos := p.measureInsertPos.getD currentText.length
        let before := currentText.take insertPos
        let after := currentText.drop insertPos
        let before :=
          if !before.isEmpty && !endsWithL newline before then before ++ newline
          else before
        let newText := before ++ newSection
        let newText :=
          if !after.isEmpty && !(List.isPrefixOf newline after) then
            (if !endsWithL newline newText then newText ++ newline else newText)
          else newText
        some (newText ++ after)

/-
  Embedding of the query_group extraction of _parse_table_tmdl
  (src/common_functions.py, lines 516-519): the first multiline
  case-insensitive match of ^\s*queryGroup\s*:\s*([^\r\n]+), else of
  ^\s*queryGroup\s+([^\r\n]+), with the capture normalized by
  _normalize_group_path.  The scanner walks the text keeping track of
  whether only whitespace has been seen since the last line start (the
  reachable-by-\s*-from-^ condition); the greedy whitespace run before
  the capture backs off inside its own run when the text ends, exactly
  as the regex engine backtracks.
-/

/-- \s*([^\r\n]+) with at least minKeep whitespace characters kept before
the capture: the greedy run is the maximal \s-run; when nothing follows
it, the engine backs off one character at a time, so the first success
captures exactly the run's last non-newline whitespace character. -/
def wsThenCapture (rest : List Char) (minKeep : Nat) : Option (List Char) :=
  let ws := rest.takeWhile pySpace
  let tail := rest.dropWhile pySpace
  if ws.length < minKeep then none
  else
    match tail with
    | [] =>
        match ws.reverse.dropWhile (fun c => c = '\n' || c = '\r') with
        | [] => none
        | c :: restRev =>
            if restRev.length < minKeep then none else some [c]
    | _ => some (tail.takeWhile (fun c => !(c = '\n' || c = '\r')))

/-- The colon form's continuation after the queryGroup token:
\s*:\s*([^\r\n]+). -/
def qgColonSuffix (rest : List Char) : Option (List Char) :=
  match rest.dropWhile pySpace with
  | ':' :: rest2 => wsThenCapture rest2 0
  | _ => none

/-- The legacy form's continuation after the queryGroup token:
\s+([^\r\n]+). -/
def qgSpaceSuffix (rest : List Char) : Option (List Char) :=
  wsThenCapture rest 1

/-- Leftmost occurrence of the queryGroup token preceded only by
whitespace on its line whose continuation matches, returning the
capture; wsOk tracks whether only whitespace separates the position from
the last line start. -/
def findQGCapture (suffix : List Char → Option (List Char)) :
    Nat → Bool → List Char → Option (List Char)
  | 0, _, _ => none
  | _ + 1, _, [] => none
  | fuel + 1, wsOk, c :: cs =>
      match (if wsOk then
               match stripLitCI "queryGroup".data (c :: cs) with
               | some rest => suffix rest
               | none => none
             else none) with
      | some cap => some cap
      | none =>
          findQGCapture suffix fuel
            (if c = '\n' then true else wsOk && pySpace c) cs

/-- group(1) of the matched queryGroup regex, colon form first. -/
def parseTableQueryGroupRaw (text : List Char) : Option (List Char) :=
  match findQGCapture qgColonSuffix (text.length + 1) true text with
  | some cap => some cap
  | none => findQGCapture qgSpaceSuffix (text.length + 1) true text

/-- The query_group field of _parse_table_tmdl's result. -/
def parseTableQueryGroup (text : List Char) : Option (List Char) :=
  match parseTableQueryGroupRaw text with
  | none => none
  | some cap => normalizeGroupPath cap

/-- C2 (amended): the no-mutation rewrite is byte-identical only on
files already in the writers' canonical form.  (1) When the file's
queryGroup line already equals the canonical replacement line
(indentation, queryGroup: prefix, single-quoted path, detected line
ending), _update_table_definition does not write and the text is
unchanged.  (2) When the recorded measures section's bytes already equal
the freshly rendered section, _write_table_measures writes back exactly
the original text.  (3) When no measures section was recorded and there
are no measures, _write_table_measures does not write at all. -/
theorem C2_canonical_identity :
    (∀ (text gp : List Char) (qi : Nat),
        (pythonReadlines text).findIdx? isQueryGroupLine = some qi →
        (pythonReadlines text).getD qi [] =
          updNewLine (pythonReadlines text) gp →
        updateTableDefinitionText text (some gp) = text) ∧
    (∀ (a b : List Char) (ms : List Measure) (nl : List Char)
        (ip : Option Nat),
        renderMeasureSection ms nl ≠ [] →
        writeTableMeasuresText (a ++ (renderMeasureSection ms nl ++ b)) ms
            { newline := nl,
              measuresSection :=
                some (a.length, a.length + (renderMeasureSection ms nl).length),
              measureInsertPos := ip } =
          some (a ++ (renderMeasureSection ms nl ++ b))) ∧
    (∀ (text nl : List Char) (ip : Option Nat),
        writeTableMeasuresText text []
            { newline := nl, measuresSection := none,
              measureInsertPos := ip } = none) := by
  refine ⟨?_, ?_, ?_⟩
  · intro text gp qi hq he
    unfold updateTableDefinitionText
    have hnone : updateTableDefinition (pythonReadlines text) (some gp) = none := by
      unfold updateTableDefinition
      by_cases hemp : (pythonReadlines text).isEmpty
      · rw [if_pos hemp]
      · rw [if_neg hemp]
        cases hm : (pythonReadlines text).findIdx? isModeLine with
        | none => simp only [hm]
        | some mi =>
            simp only [hm, hq]
            rw [if_pos he]
    rw [hnone]
  · intro a b ms nl ip hne
    unfold writeTableMeasuresText
    have hfalse : (renderMeasureSection ms nl).isEmpty = false :=
      List.isEmpty_eq_false.mpr hne
    simp only [hfalse, Bool.not_false, if_true]
    have htake : (a ++ (renderMeasureSection ms nl ++ b)).take a.length = a :=
      List.take_left a _
    have hdrop : (a ++ (renderMeasureSection ms nl ++ b)).drop
        (a.length + (renderMeasureSection ms nl).length) = b := by
      rw [← List.append_assoc, ← List.length_append]
      exact List.drop_left _ b
    rw [htake, hdrop, List.append_assoc]
  · intro text nl ip
    rfl

/-- C2 counterexample: a table file whose queryGroup line carries the
unquoted value Sales — a form the parser accepts — is not a fixed point
of the no-mutation rewrite: _update_table_definition rewrites the line
with the canonical single quotes, so the file content changes although
nothing changed in memory. -/
theorem C2_counterexample :
    parseTableQueryGroup
        "table T\n\tmode: import\n\tqueryGroup: Sales\n".data =
      some "Sales".data ∧
    updateTableDefinitionText
        "table T\n\tmode: import\n\tqueryGroup: Sales\n".data
        (some "Sales".data) =
      "table T\n\tmode: import\n\tqueryGroup: 'Sales'\n".data ∧
    "table T\n\tmode: import\n\tqueryGroup: 'Sales'\n".data ≠
      "table T\n\tmode: import\n\tqueryGroup: Sales\n".data := by
  refine ⟨by decide, by decide, by decide⟩

/-- The canonical one-measure example used by the C2 witness. -/
def C2m : Measure :=
  { name := "M".data, quotedName := some false, indent := "\t".data,
    expressionIndent := "\t".data, expression := "1".data,
    displayFolder := [], lineageTag := [], otherMetadata := [],
    formatString := none, formatIndent := [] }

/-- C2 witness: the three canonical-form identities at concrete inputs. -/
theorem C2_witness :
    updateTableDefinitionText
        "table T\n\tmode: import\n\tqueryGroup: 'Sales'\n".data
        (some "Sales".data) =
      "table T\n\tmode: import\n\tqueryGroup: 'Sales'\n".data ∧
    writeTableMeasuresText
        ("table T\n".data ++ (renderMeasureSection [C2m] "\n".data ++ [])) [C2m]
        { newline := "\n".data,
          measuresSection :=
            some ("table T\n".data.length,
              "table T\n".data.length +
                (renderMeasureSection [C2m] "\n".data).length),
          measureInsertPos := none } =
      some ("table T\n".data ++ (renderMeasureSection [C2m] "\n".data ++ [])) ∧
    writeTableMeasuresText "table T\n".data []
        { newline := "\n".data, measuresSection := none,
          measureInsertPos := none } = none :=
  ⟨C2_canonical_identity.1 _ "Sales".data 2 (by decide) (by decide),
   C2_canonical_identity.2.1 "table T\n".data [] [C2m] "\n".data none
     (by decide),
   C2_canonical_identity.2.2 "table T\n".data "\n".data none⟩
